import Mathlib

/-!
Verification of the checkpoint/resume, partitioning and progress-reporting
protocol of the docling chunker service (src/server/python/docling_chunker.py).

The black-box converter and chunker are modelled by the data a Work Unit
carries: `WorkUnit.result` is `none` when the conversion raises and
`some chunks` when it succeeds and yields that list of chunks.  Disk files
are modelled explicitly: the output file is `Option (List α)` (absent, or
a JSON document whose `chunks` array holds that list), and the checkpoint
file is `Option ProgressData`.  All numeric computation of the service
uses Python floats on exactly representable values (1.5, 0.5, multiples
thereof), embedded here as `ℚ`.
-/

/-- The configuration dict built by `chunk_documents` (lines 564-574 of the
source) and stored in the checkpoint under the `config` key.  It holds the
enrichment settings; note the source does not put `resume`,
`vision_batch_size` or `processing_batch_size` into this dict. -/
structure ChunkConfig where
  max_tokens : Nat
  merge_peers : Bool
  enable_formula : Bool
  enable_picture_classification : Bool
  enable_picture_description : Bool
  enable_code_enrichment : Bool
  enable_ocr : Bool
  enable_table_structure : Bool
  picture_description_max_tokens : Nat
deriving DecidableEq, Repr

/-- The full parameter list of `chunk_documents` (line 352 of the source). -/
structure JobParams where
  max_tokens : Nat
  merge_peers : Bool
  enable_formula : Bool
  enable_picture_classification : Bool
  enable_picture_description : Bool
  enable_code_enrichment : Bool
  enable_ocr : Bool
  enable_table_structure : Bool
  picture_description_max_tokens : Nat
  resume : Bool
  vision_batch_size : Nat
  processing_batch_size : Nat
deriving DecidableEq, Repr

/-- The `config` dict assembled at lines 564-574 of the source from the
parameters of `chunk_documents`. -/
def configOfParams (p : JobParams) : ChunkConfig :=
  { max_tokens := p.max_tokens
    merge_peers := p.merge_peers
    enable_formula := p.enable_formula
    enable_picture_classification := p.enable_picture_classification
    enable_picture_description := p.enable_picture_description
    enable_code_enrichment := p.enable_code_enrichment
    enable_ocr := p.enable_ocr
    enable_table_structure := p.enable_table_structure
    picture_description_max_tokens := p.picture_description_max_tokens }

/-- The JSON object written by `save_progress` (lines 200-207 of the source). -/
structure ProgressData where
  output_file : String
  completed_chunks : List String
  current_file_idx : Nat
  total_files : Nat
  config : ChunkConfig
  timestamp : ℚ
deriving DecidableEq, Repr

/-- `save_progress` (lines 188-212): the record it serialises to the progress
file.  The write itself always overwrites the previous record. -/
def save_progress (output_file : String) (completed_chunks : List String)
    (current_file_idx : Nat) (total_files : Nat) (config : ChunkConfig)
    (now : ℚ) : ProgressData :=
  { output_file := output_file
    completed_chunks := completed_chunks
    current_file_idx := current_file_idx
    total_files := total_files
    config := config
    timestamp := now }

/-- `load_progress` (lines 215-239): absent or unparseable files give `None`
(modelled as input `none`); a parsed record is discarded as stale when
`(now - timestamp) / 86400 > 7`. -/
def load_progress (file : Option ProgressData) (now : ℚ) : Option ProgressData :=
  match file with
  | none => none
  | some pd => if (now - pd.timestamp) / 86400 > 7 then none else some pd

/-! ## Heartbeat reporter (send_conversion_heartbeat, lines 61-169) -/

/-- Baseline of 1.5 seconds per page (line 82 of the source). -/
def BASE_SECONDS_PER_PAGE : ℚ := 3 / 2

/-- The enrichment multiplier of lines 83-85: `1.0 + enrichments * 0.5`,
overridden to `4.0` when five or more enrichments are enabled. -/
def enrichment_multiplier (enrichments_enabled : Nat) : ℚ :=
  if enrichments_enabled ≥ 5 then 4
  else 1 + (enrichments_enabled : ℚ) * (1 / 2)

/-- `SECONDS_PER_PAGE` (line 87): baseline times the multiplier. -/
def SECONDS_PER_PAGE (enrichments_enabled : Nat) : ℚ :=
  BASE_SECONDS_PER_PAGE * enrichment_multiplier enrichments_enabled

/-- `estimated_total_seconds` (line 120): `int(total_pages * SECONDS_PER_PAGE)`
when `total_pages > 0`, else `0`.  Python `int()` truncates; the operand is
nonnegative, so this is the floor. -/
def estimated_total_seconds (total_pages : Nat) (enrichments_enabled : Nat) : ℤ :=
  if total_pages > 0 then ⌊(total_pages : ℚ) * SECONDS_PER_PAGE enrichments_enabled⌋
  else 0

/-- `progress_percent` (line 122): `min(95, elapsed / estimated_total * 100)`
when the estimate is positive, else `0`. -/
def progress_percent (elapsed : Nat) (estimated_total_seconds : ℤ) : ℚ :=
  if estimated_total_seconds > 0 then
    min 95 ((elapsed : ℚ) / (estimated_total_seconds : ℚ) * 100)
  else 0

/-! ## Partitioner (split_pdf, lines 252-313) -/

/-- The page ranges produced by the loop at lines 285-301: chunk `i` covers
0-based pages `[i * R, min (i * R + R) P)`, and there are
`(P + R - 1) / R` chunks. -/
def splitRanges (total_pages : Nat) (pages_per_chunk : Nat) : List (Nat × Nat) :=
  (List.range ((total_pages + pages_per_chunk - 1) / pages_per_chunk)).map
    (fun chunk_idx =>
      (chunk_idx * pages_per_chunk,
        min (chunk_idx * pages_per_chunk + pages_per_chunk) total_pages))

/-- Result of `split_pdf`: either the original document as the sole unit, or
a list of page ranges materialised as sub-documents. -/
inductive SplitResult
  | whole
  | parts (ranges : List (Nat × Nat))
deriving DecidableEq, Repr

/-- `split_pdf` (lines 252-313) on its success path: when
`total_pages ≤ pages_per_chunk` the original path alone is returned
(line 270); otherwise the ranges of `splitRanges` are materialised. -/
def split_pdf (total_pages : Nat) (pages_per_chunk : Nat) : SplitResult :=
  if total_pages ≤ pages_per_chunk then .whole
  else .parts (splitRanges total_pages pages_per_chunk)

/-- The 1-based page numbers covered by a range `(start_page, end_page)`
(0-based start, exclusive end), matching the labels `p{start+1}-{end}`. -/
def rangePages (r : Nat × Nat) : List Nat :=
  List.range' (r.1 + 1) (r.2 - r.1)

/-! ## Output appender (append_chunks_to_file, lines 316-349) -/

/-- `append_chunks_to_file`: on `is_first_write` it creates (truncating any
prior file) the document with exactly the given chunks; otherwise it reads
the existing file, extends the chunks array and rewrites it — the read of a
missing file raises, is caught and yields `False`.  Returns the new disk
state and the success flag. -/
def append_chunks_to_file {α : Type} (outFile : Option (List α)) (chunks : List α)
    (is_first_write : Bool) : Option (List α) × Bool :=
  if is_first_write then (some chunks, true)
  else
    match outFile with
    | none => (none, false)
    | some prev => (some (prev ++ chunks), true)

/-! ## Pipeline driver (chunk_documents, lines 352-830)

One Work Unit is a path in `pdf_chunks` (line 599 / 607): the whole document
or one materialised page-range.  The black-box `converter.convert` followed
by `chunker.chunk` is modelled by `WorkUnit.result`: `none` when the call
raises (the exception propagates to the per-document `except` at line 782),
`some chunks` when the unit yields that chunk list.  The cooperative stop
flag, set asynchronously and polled at the top of the document loop
(line 580) and before each unit (line 614), is modelled by the index of the
first poll that observes it set (`stopThresh`, `none` meaning never). -/

/-- A Work Unit: one entry of `pdf_chunks`, with the chunk list the
black-box convert-and-chunk step produces for it (`none` = it raises). -/
structure WorkUnit (α : Type) where
  path : String
  result : Option (List α)
deriving DecidableEq

/-- An input document: its file name and its Work Units in order. -/
structure Document (α : Type) where
  name : String
  units : List (WorkUnit α)
deriving DecidableEq

/-- The mutable state of `chunk_documents` together with the two disk files
it owns: the output file (`outFile`) and the checkpoint (`progressFile`). -/
structure DriverState (α : Type) where
  outFile : Option (List α)
  progressFile : Option ProgressData
  all_chunks : List α
  completed_chunk_paths : List String
  processed_files : List String
  polls : Nat

/-- Per-run constants of the driver loop. -/
structure RunCfg where
  stopThresh : Option Nat
  start_file_idx : Nat
  output_file : String
  total_files : Nat
  config : ChunkConfig
  now : ℚ

/-- Whether the `STOP_REQUESTED` flag is observed set at the poll with the
given index: it is set just before poll number `t` (never, when `none`). -/
def stopSeen (thresh : Option Nat) (polls : Nat) : Bool :=
  match thresh with
  | none => false
  | some t => decide (t ≤ polls)

/-- Outcome of the inner loop over `pdf_chunks` (lines 612-765). -/
inductive UnitsOutcome (α : Type)
  | stopped (st : DriverState α)
  | error (st : DriverState α)
  | done (st : DriverState α)

/-- The inner loop over the Work Units of one document (lines 612-765):
poll the stop flag (saving progress and returning when set, lines 613-625),
skip units already in `completed_chunk_paths` (lines 627-632), convert and
chunk (an exception aborts the document, line 782), append to the output
file with `is_first` as at line 740, and on successful append record the
unit and save progress (lines 743-750). -/
def runUnits {α : Type} (cfg : RunCfg) (idx : Nat) (chunkIdx : Nat)
    (st : DriverState α) : List (WorkUnit α) → UnitsOutcome α
  | [] => .done st
  | u :: rest =>
    let seen := stopSeen cfg.stopThresh st.polls
    let st1 : DriverState α := { st with polls := st.polls + 1 }
    if seen then
      .stopped { st1 with progressFile := some (save_progress cfg.output_file
        st1.completed_chunk_paths idx cfg.total_files cfg.config cfg.now) }
    else if u.path ∈ st1.completed_chunk_paths then
      runUnits cfg idx (chunkIdx + 1) st1 rest
    else
      match u.result with
      | none => .error st1
      | some chunks =>
        let is_first := decide (idx = 1 ∧ chunkIdx = 1 ∧ st1.completed_chunk_paths = [])
        let res := append_chunks_to_file st1.outFile chunks is_first
        let st2 : DriverState α := { st1 with outFile := res.1 }
        if res.2 then
          let st3 : DriverState α := { st2 with
            all_chunks := st2.all_chunks ++ chunks,
            completed_chunk_paths := st2.completed_chunk_paths ++ [u.path] }
          let st4 : DriverState α := { st3 with progressFile := some (save_progress
            cfg.output_file st3.completed_chunk_paths idx cfg.total_files
            cfg.config cfg.now) }
          runUnits cfg idx (chunkIdx + 1) st4 rest
        else
          runUnits cfg idx (chunkIdx + 1) st2 rest

/-- Outcome of the document loop (lines 578-794). -/
inductive DocsOutcome (α : Type)
  | stopped (st : DriverState α)
  | done (st : DriverState α)

/-- The loop over enumerated documents (lines 578-794): poll the stop flag at
the top (returning stopped WITHOUT saving, lines 579-591), skip documents
before the resume point (line 594), run the unit loop, and on a document
level exception record the error and continue (lines 782-794); a completed
document is appended to `processed_files` (line 768). -/
def runDocs {α : Type} (cfg : RunCfg) (st : DriverState α) :
    List (Nat × Document α) → DocsOutcome α
  | [] => .done st
  | (idx, d) :: rest =>
    let seen := stopSeen cfg.stopThresh st.polls
    let st1 : DriverState α := { st with polls := st.polls + 1 }
    if seen then .stopped st1
    else if idx < cfg.start_file_idx then runDocs cfg st1 rest
    else
      match runUnits cfg idx 1 st1 d.units with
      | .stopped st2 => .stopped st2
      | .error st2 => runDocs cfg st2 rest
      | .done st2 =>
        runDocs cfg { st2 with processed_files := st2.processed_files ++ [d.name] } rest

/-- `enumerate(document_files, 1)` (line 578). -/
def enumerateFrom {β : Type} (n : Nat) : List β → List (Nat × β)
  | [] => []
  | a :: l => (n, a) :: enumerateFrom (n + 1) l

/-- The JSON object `chunk_documents` returns on stdout: exactly the keys the
source puts in the respective result dicts (lines 540-544, 586-591, 620-625,
796-800, 819-824). -/
structure JobResult where
  success : Bool
  error : Option String := none
  resumable : Option Bool := none
  completed_parts : Option Nat := none
  chunks_count : Option Nat := none
  files_processed : Option Nat := none
  output_file : Option String := none
deriving DecidableEq, Repr

/-- `chunk_documents` (lines 352-830): fail when no documents are found
(lines 540-544); load the checkpoint when `resume` (lines 550-561, with the
defaults of `.get`); run the document loop; report a stop as resumable
(lines 586-591, 620-625); fail with the no-chunks error when `all_chunks`
is empty (lines 796-800); otherwise clear the progress file and succeed
(lines 802-824).  Returns the result object and the final state (including
the two disk files). -/
def chunk_documents {α : Type} (docs : List (Document α)) (output_file : String)
    (params : JobParams) (diskProgress : Option ProgressData)
    (diskOut : Option (List α)) (now : ℚ) (stopThresh : Option Nat) :
    JobResult × DriverState α :=
  let st0 : DriverState α :=
    { outFile := diskOut, progressFile := diskProgress, all_chunks := []
      completed_chunk_paths := [], processed_files := [], polls := 0 }
  if docs.isEmpty then
    ({ success := false, error := some "No supported documents found" }, st0)
  else
    let loaded := if params.resume then load_progress diskProgress now else none
    let completed0 := (loaded.map (fun pd => pd.completed_chunks)).getD []
    let start_idx := (loaded.map (fun pd => pd.current_file_idx)).getD 1
    let cfg : RunCfg :=
      { stopThresh := stopThresh, start_file_idx := start_idx
        output_file := output_file, total_files := docs.length
        config := configOfParams params, now := now }
    let st1 : DriverState α := { st0 with completed_chunk_paths := completed0 }
    match runDocs cfg st1 (enumerateFrom 1 docs) with
    | .stopped st =>
      ({ success := false, error := some "Stopped by user", resumable := some true,
         completed_parts := some st.completed_chunk_paths.length }, st)
    | .done st =>
      if st.all_chunks.isEmpty then
        ({ success := false, error := some "No chunks generated from documents" }, st)
      else
        ({ success := true, chunks_count := some st.all_chunks.length,
           files_processed := some st.processed_files.length,
           output_file := some output_file },
         { st with progressFile := none })

/-! ## Derived notions used by the statements -/

/-- The chunks a unit contributes (empty when it raises). -/
def unitChunks {α : Type} (u : WorkUnit α) : List α := (u.result).getD []

/-- All unit paths of a document, in order. -/
def unitPaths {α : Type} (d : Document α) : List String := d.units.map (fun u => u.path)

/-- All unit paths of a document list, in enumeration order. -/
def allPaths {α : Type} (docs : List (Document α)) : List String :=
  docs.flatMap unitPaths

/-- All chunks of a document, in order. -/
def docChunks {α : Type} (d : Document α) : List α := d.units.flatMap unitChunks

/-- All chunks of a document list, in enumeration order: the content of the
output file of an uninterrupted, error-free run. -/
def allChunksOf {α : Type} (docs : List (Document α)) : List α :=
  docs.flatMap docChunks

/-! ## C2: partition completeness -/

/-- Unfolded form of the splitting loop: the ranges starting at page `s`,
`k` of them. -/
def rangesRec (s total_pages pages_per_chunk : Nat) : Nat → List (Nat × Nat)
  | 0 => []
  | k + 1 =>
    (s, min (s + pages_per_chunk) total_pages) ::
      rangesRec (s + pages_per_chunk) total_pages pages_per_chunk k

theorem rangesRec_shift (P R : Nat) :
    ∀ (k s : Nat), (List.range k).map
      (fun i => (s + i * R, min (s + i * R + R) P)) = rangesRec s P R k := by
  intro k
  induction k with
  | zero => intro s; rfl
  | succ n ih =>
    intro s
    rw [List.range_succ_eq_map, List.map_cons, List.map_map]
    have harg : ((fun i => (s + i * R, min (s + i * R + R) P)) ∘ Nat.succ) =
        fun i => ((s + R) + i * R, min ((s + R) + i * R + R) P) := by
      funext i
      simp only [Function.comp_apply]
      have h1 : s + Nat.succ i * R = (s + R) + i * R := by
        rw [Nat.succ_mul]
        ring
      rw [h1]
    rw [harg, ih (s + R)]
    simp [rangesRec]

theorem splitRanges_eq_rangesRec (P R : Nat) :
    splitRanges P R = rangesRec 0 P R ((P + R - 1) / R) := by
  unfold splitRanges
  rw [← rangesRec_shift P R ((P + R - 1) / R) 0]
  simp

theorem rangesRec_cover (P R : Nat) :
    ∀ (k s : Nat), P ≤ s + k * R → (∀ j, j < k → s + j * R < P) →
      (rangesRec s P R k).flatMap rangePages = List.range' (s + 1) (P - s) := by
  intro k
  induction k with
  | zero =>
    intro s hub _
    simp only [Nat.zero_mul, Nat.add_zero] at hub
    simp [rangesRec, Nat.sub_eq_zero_of_le hub]
  | succ n ih =>
    intro s hub hlb
    have hs : s < P := by
      have := hlb 0 (Nat.succ_pos n)
      simpa using this
    simp only [rangesRec, List.flatMap_cons]
    rcases le_or_lt P (s + R) with hPR | hPR
    · -- the last (or only) range: it reaches P and there is no tail
      have hn0 : n = 0 := by
        by_contra hne
        have h1 := hlb 1 (by omega)
        rw [Nat.one_mul] at h1
        omega
      subst hn0
      have hmin : min (s + R) P = P := min_eq_right hPR
      rw [hmin]
      simp [rangesRec, rangePages]
    · -- a full range of R pages followed by the remaining cover
      have hmin : min (s + R) P = s + R := min_eq_left (le_of_lt hPR)
      have htail : (rangesRec (s + R) P R n).flatMap rangePages =
          List.range' (s + R + 1) (P - (s + R)) := by
        refine ih (s + R) ?_ ?_
        · have h1 : P ≤ s + (n + 1) * R := hub
          have h2 : s + (n + 1) * R = (s + R) + n * R := by
            rw [Nat.succ_mul]
            ring
          omega
        · intro j hj
          have h1 := hlb (j + 1) (by omega)
          have h2 : s + (j + 1) * R = (s + R) + j * R := by
            rw [Nat.succ_mul]
            ring
          omega
      rw [hmin, htail]
      simp only [rangePages]
      have hhead : s + R - s = R := by omega
      rw [hhead]
      have happ := List.range'_append (s + 1) R (P - (s + R)) 1
      simp only [Nat.one_mul] at happ
      have harg : s + 1 + R = s + R + 1 := by omega
      rw [harg] at happ
      rw [happ]
      congr 1
      omega

/-- The quotient `(P + R - 1) / R` computed at line 278 is bracketed by
`R * (n - 1) < P ≤ R * n`, i.e. it is the ceiling of `P / R`. -/
theorem ceilDiv_bounds (P R : Nat) (hR : 0 < R) (hP : 0 < P) :
    P ≤ R * ((P + R - 1) / R) ∧ R * ((P + R - 1) / R - 1) < P := by
  have h := Nat.div_add_mod (P + R - 1) R
  have hm : (P + R - 1) % R < R := Nat.mod_lt _ hR
  rcases hn : (P + R - 1) / R with _ | k
  · rw [hn] at h
    simp only [Nat.mul_zero, Nat.zero_add] at h
    omega
  · rw [hn] at h
    have hsucc : R * (k + 1) = R * k + R := by ring
    rw [hsucc] at h
    constructor
    · rw [hsucc]
      generalize hq : R * k = q at h
      omega
    · simp only [Nat.succ_sub_one]
      generalize hq : R * k = q at h
      omega

theorem ceil_div_eq (P R : Nat) (hR : 0 < R) (hP : 0 < P) :
    ⌈(P : ℚ) / (R : ℚ)⌉ = (((P + R - 1) / R : ℕ) : ℤ) := by
  obtain ⟨hub, hlb⟩ := ceilDiv_bounds P R hR hP
  obtain ⟨m, hm⟩ : ∃ m, (P + R - 1) / R = m + 1 := by
    rcases Nat.eq_zero_or_pos ((P + R - 1) / R) with h0 | h1
    · rw [h0, Nat.mul_zero] at hub
      omega
    · exact ⟨(P + R - 1) / R - 1, by omega⟩
  rw [hm] at hub hlb ⊢
  simp only [Nat.add_sub_cancel] at hlb
  have hRQ : (0 : ℚ) < (R : ℚ) := by exact_mod_cast hR
  rw [Int.ceil_eq_iff]
  constructor
  · rw [lt_div_iff₀ hRQ]
    have h2 : (m : ℚ) * (R : ℚ) < (P : ℚ) := by
      rw [Nat.mul_comm] at hlb
      exact_mod_cast hlb
    push_cast
    linarith
  · rw [div_le_iff₀ hRQ]
    have h2 : (P : ℚ) ≤ ((m : ℚ) + 1) * (R : ℚ) := by
      rw [Nat.mul_comm] at hub
      exact_mod_cast hub
    push_cast
    linarith

/-- C2: splitting `P` pages with range size `R` where `R < P` yields
partitions whose 1-based page ranges concatenate to exactly `[1, P]`
(hence contiguous, non-overlapping and covering), number `⌈P / R⌉`
(computed as `(P + R - 1) / R`), with every range except the last of size
exactly `R` and the last range ending at `P` (absorbing the remainder);
when `P ≤ R` the original document is returned as the sole unit. -/
theorem partition_completeness (P R : Nat) (hR : 0 < R) :
    (R < P →
      split_pdf P R = SplitResult.parts (splitRanges P R) ∧
      (splitRanges P R).length = (P + R - 1) / R ∧
      (((P + R - 1) / R : ℕ) : ℤ) = ⌈(P : ℚ) / (R : ℚ)⌉ ∧
      (splitRanges P R).flatMap rangePages = List.range' 1 P ∧
      (∃ pre, splitRanges P R = pre ++ [(((P + R - 1) / R - 1) * R, P)] ∧
        ∀ r ∈ pre, r.2 - r.1 = R)) ∧
    (P ≤ R → split_pdf P R = SplitResult.whole) := by
  constructor
  · intro hRP
    have hP : 0 < P := lt_trans hR hRP
    obtain ⟨hub, hlb⟩ := ceilDiv_bounds P R hR hP
    obtain ⟨m, hm⟩ : ∃ m, (P + R - 1) / R = m + 1 := by
      rcases Nat.eq_zero_or_pos ((P + R - 1) / R) with h0 | h1
      · rw [h0, Nat.mul_zero] at hub
        omega
      · exact ⟨(P + R - 1) / R - 1, by omega⟩
    rw [hm] at hub hlb
    simp only [Nat.add_sub_cancel] at hlb
    refine ⟨?_, ?_, (ceil_div_eq P R hR hP).symm, ?_, ?_⟩
    · unfold split_pdf
      rw [if_neg (by omega)]
    · unfold splitRanges
      rw [List.length_map, List.length_range]
    · rw [splitRanges_eq_rangesRec, hm]
      have hcov := rangesRec_cover P R (m + 1) 0 ?_ ?_
      · simpa using hcov
      · have h1 : 0 + (m + 1) * R = R * (m + 1) := by ring
        omega
      · intro j hj
        have h4 : j * R ≤ m * R := Nat.mul_le_mul_right R (by omega)
        have h5 : m * R = R * m := Nat.mul_comm _ _
        omega
    · -- decompose into the initial full ranges and the final one
      refine ⟨(List.range m).map
        (fun i => (i * R, min (i * R + R) P)), ?_, ?_⟩
      · unfold splitRanges
        rw [hm, List.range_succ, List.map_append, List.map_cons, List.map_nil]
        congr 2
        have hmin : min (m * R + R) P = P := by
          refine min_eq_right ?_
          have h2 : R * (m + 1) = m * R + R := by ring
          omega
        have hlast : (m + 1 - 1) * R = m * R := by
          simp
        rw [hmin, hlast]
      · intro r hr
        rcases List.mem_map.mp hr with ⟨i, hi, hif⟩
        have him : i < m := List.mem_range.mp hi
        have hmin : min (i * R + R) P = i * R + R := by
          refine min_eq_left ?_
          have h1 : i * R + R = (i + 1) * R := by
            rw [Nat.succ_mul]
          have h2 : (i + 1) * R ≤ m * R := Nat.mul_le_mul_right R (by omega)
          have h3 : m * R = R * m := Nat.mul_comm _ _
          omega
        rw [← hif, hmin]
        omega
  · intro h
    unfold split_pdf
    rw [if_pos h]

/-- Witness for C2 at a 250-page document with range size 100 (three ranges,
the last shorter), and a 100-page document that is not split. -/
theorem partition_completeness_witness :
    split_pdf 250 100 = SplitResult.parts [(0, 100), (100, 200), (200, 250)] ∧
    (splitRanges 250 100).flatMap rangePages = List.range' 1 250 ∧
    (splitRanges 250 100).length = 3 ∧
    split_pdf 100 100 = SplitResult.whole := by
  refine ⟨by decide, ((partition_completeness 250 100 (by norm_num)).1
    (by norm_num)).2.2.2.1, by decide, ?_⟩
  exact (partition_completeness 100 100 (by norm_num)).2 (by norm_num)

/-! ## C5: heartbeat bound -/

/-- C5: for every heartbeat event, for every elapsed time and estimated
total, the percent computed at line 122 is at most 95, and it is 0 when the
estimated total is zero. -/
theorem heartbeat_bound (elapsed total_pages enrichments : Nat) :
    progress_percent elapsed (estimated_total_seconds total_pages enrichments) ≤ 95 ∧
    (estimated_total_seconds total_pages enrichments = 0 →
      progress_percent elapsed (estimated_total_seconds total_pages enrichments) = 0) := by
  constructor
  · unfold progress_percent
    split
    · exact min_le_left _ _
    · norm_num
  · intro h
    rw [h]
    simp [progress_percent]

/-- Witness for C5 at a long elapsed time (percent clamps to 95) and at zero
pages (estimate 0, percent 0). -/
theorem heartbeat_bound_witness :
    progress_percent 100000 (estimated_total_seconds 2 0) ≤ 95 ∧
    estimated_total_seconds 0 3 = 0 ∧
    progress_percent 7 (estimated_total_seconds 0 3) = 0 := by
  refine ⟨(heartbeat_bound 100000 2 0).1, by decide, ?_⟩
  exact (heartbeat_bound 7 0 3).2 (by decide)

/-! ## C7: heartbeat time estimate scaling -/

/-- C7: the seconds-per-page estimate is the 1.5 s baseline scaled by
`1 + 0.5 * n` for fewer than 5 enabled enrichments and by the fixed
multiplier 4.0 at or above 5. -/
theorem heartbeat_enrichment_scaling (n : Nat) :
    (n < 5 → SECONDS_PER_PAGE n = (1.5 : ℚ) * (1 + (n : ℚ) * (0.5 : ℚ))) ∧
    (5 ≤ n → SECONDS_PER_PAGE n = (1.5 : ℚ) * (4.0 : ℚ)) := by
  constructor
  · intro h
    unfold SECONDS_PER_PAGE enrichment_multiplier BASE_SECONDS_PER_PAGE
    rw [if_neg (by omega)]
    norm_num
  · intro h
    unfold SECONDS_PER_PAGE enrichment_multiplier BASE_SECONDS_PER_PAGE
    rw [if_pos h]
    norm_num

/-- Witness for C7 at 2 enrichments (linear regime) and 6 (capped regime). -/
theorem heartbeat_enrichment_scaling_witness :
    SECONDS_PER_PAGE 2 = (1.5 : ℚ) * (1 + (2 : ℚ) * (0.5 : ℚ)) ∧
    SECONDS_PER_PAGE 6 = (1.5 : ℚ) * (4.0 : ℚ) := by
  exact ⟨by simpa using (heartbeat_enrichment_scaling 2).1 (by norm_num),
    (heartbeat_enrichment_scaling 6).2 (by norm_num)⟩

/-! ## C8: checkpoint record contents (corrected: the saved config does not
include the vision and processing batch sizes) -/

/-- C8 counterexample: two jobs that differ only in their vision and
processing batch sizes produce the identical `config` record in the
checkpoint, so the persisted config cannot include the batch sizes,
contrary to the claim. -/
theorem checkpoint_config_omits_batch_sizes :
    configOfParams ⟨512, true, true, false, false, false, true, true, 100, false, 4, 4⟩ =
      configOfParams ⟨512, true, true, false, false, false, true, true, 100, false, 32, 16⟩ ∧
    (⟨512, true, true, false, false, false, true, true, 100, false, 4, 4⟩ : JobParams) ≠
      ⟨512, true, true, false, false, false, true, true, 100, false, 32, 16⟩ := by
  exact ⟨rfl, by decide⟩

/-- C8 amended: the checkpoint record persisted by `save_progress` holds
`output_file`, `completed_chunks`, `current_file_idx`, `total_files`, the
`timestamp`, and a `config` with exactly the nine enrichment settings of the
job (max tokens, merge peers, the six enable flags, picture-description max
tokens) — the vision and processing batch sizes are not part of it. -/
theorem checkpoint_record_contents (output_file : String)
    (completed : List String) (idx total : Nat) (p : JobParams) (now : ℚ) :
    save_progress output_file completed idx total (configOfParams p) now =
      { output_file := output_file
        completed_chunks := completed
        current_file_idx := idx
        total_files := total
        config :=
          { max_tokens := p.max_tokens
            merge_peers := p.merge_peers
            enable_formula := p.enable_formula
            enable_picture_classification := p.enable_picture_classification
            enable_picture_description := p.enable_picture_description
            enable_code_enrichment := p.enable_code_enrichment
            enable_ocr := p.enable_ocr
            enable_table_structure := p.enable_table_structure
            picture_description_max_tokens := p.picture_description_max_tokens }
        timestamp := now } := rfl

/-! ## C6: checkpoint staleness -/

/-- A record at most 7 days old is returned. -/
theorem load_progress_fresh (pd : ProgressData) (now : ℚ)
    (h : now - pd.timestamp ≤ 7 * 86400) :
    load_progress (some pd) now = some pd := by
  have hsome : load_progress (some pd) now =
      if (now - pd.timestamp) / 86400 > 7 then none else some pd := rfl
  rw [hsome, if_neg]
  rw [gt_iff_lt, lt_div_iff₀ (by norm_num : (0 : ℚ) < 86400)]
  exact not_lt.mpr h

/-- A record older than 7 days is discarded. -/
theorem load_progress_stale (pd : ProgressData) (now : ℚ)
    (h : 7 * 86400 < now - pd.timestamp) :
    load_progress (some pd) now = none := by
  have hsome : load_progress (some pd) now =
      if (now - pd.timestamp) / 86400 > 7 then none else some pd := rfl
  rw [hsome, if_pos]
  rw [gt_iff_lt, lt_div_iff₀ (by norm_num : (0 : ℚ) < 86400)]
  exact h

/-- C6: `load_progress` returns the record exactly when the file exists,
parses and the timestamp is at most 7 days old; a record older than 7 days
is discarded, and a `resume=true` run against it behaves exactly like a
fresh (`resume=false`) run. -/
theorem checkpoint_staleness {α : Type} (pd : ProgressData) (now : ℚ) :
    (now - pd.timestamp ≤ 7 * 86400 → load_progress (some pd) now = some pd) ∧
    (7 * 86400 < now - pd.timestamp → load_progress (some pd) now = none) ∧
    load_progress none now = none ∧
    (7 * 86400 < now - pd.timestamp →
      ∀ (docs : List (Document α)) (output_file : String) (params : JobParams)
        (diskOut : Option (List α)) (stopThresh : Option Nat),
        chunk_documents docs output_file params (some pd) diskOut now stopThresh =
          chunk_documents docs output_file { params with resume := false }
            (some pd) diskOut now stopThresh) := by
  refine ⟨load_progress_fresh pd now, load_progress_stale pd now, rfl, ?_⟩
  intro h docs output_file params diskOut stopThresh
  have hload : load_progress (some pd) now = none := load_progress_stale pd now h
  unfold chunk_documents
  rw [hload]
  simp only [ite_self, configOfParams]

/-- Witness for C6: a checkpoint stamped at time 0 is kept at 7 days sharp,
discarded one second later, and the stale resume run equals the fresh run on
a concrete document set. -/
theorem checkpoint_staleness_witness :
    load_progress (some ⟨"o", ["u"], 1, 1, configOfParams
      ⟨512, true, true, false, false, false, true, true, 100, true, 4, 4⟩, 0⟩) 604800 =
      some ⟨"o", ["u"], 1, 1, configOfParams
        ⟨512, true, true, false, false, false, true, true, 100, true, 4, 4⟩, 0⟩ ∧
    load_progress (some ⟨"o", ["u"], 1, 1, configOfParams
      ⟨512, true, true, false, false, false, true, true, 100, true, 4, 4⟩, 0⟩) 604801 = none ∧
    chunk_documents [⟨"d", [⟨"u", some [7]⟩]⟩] "o"
      ⟨512, true, true, false, false, false, true, true, 100, true, 4, 4⟩
      (some ⟨"o", ["u"], 1, 1, configOfParams
        ⟨512, true, true, false, false, false, true, true, 100, true, 4, 4⟩, 0⟩)
      none 604801 none =
    chunk_documents [⟨"d", [⟨"u", some [7]⟩]⟩] "o"
      ⟨512, true, true, false, false, false, true, true, 100, false, 4, 4⟩
      (some ⟨"o", ["u"], 1, 1, configOfParams
        ⟨512, true, true, false, false, false, true, true, 100, true, 4, 4⟩, 0⟩)
      none 604801 none := by
  refine ⟨(checkpoint_staleness (α := Nat) _ 604800).1 (by norm_num),
    (checkpoint_staleness (α := Nat) _ 604801).2.1 (by norm_num), ?_⟩
  exact (checkpoint_staleness _ 604801).2.2.2 (by norm_num) _ _ _ _ _

/-! ## Step lemmas for the driver loops -/

theorem runUnits_nil {α : Type} (cfg : RunCfg) (idx ci : Nat) (st : DriverState α) :
    runUnits cfg idx ci st [] = .done st := rfl

theorem runUnits_cons_stop {α : Type} (cfg : RunCfg) (idx ci : Nat) (st : DriverState α)
    (u : WorkUnit α) (rest : List (WorkUnit α))
    (h : stopSeen cfg.stopThresh st.polls = true) :
    runUnits cfg idx ci st (u :: rest) =
      .stopped { st with
        polls := st.polls + 1
        progressFile := some (save_progress cfg.output_file st.completed_chunk_paths idx
          cfg.total_files cfg.config cfg.now) } := by
  simp only [runUnits, h]
  rfl

theorem runUnits_cons_skip {α : Type} (cfg : RunCfg) (idx ci : Nat) (st : DriverState α)
    (u : WorkUnit α) (rest : List (WorkUnit α))
    (h : stopSeen cfg.stopThresh st.polls = false)
    (hmem : u.path ∈ st.completed_chunk_paths) :
    runUnits cfg idx ci st (u :: rest) =
      runUnits cfg idx (ci + 1) { st with polls := st.polls + 1 } rest := by
  simp only [runUnits, h]
  rw [if_neg (by simp), if_pos hmem]

theorem runUnits_cons_error {α : Type} (cfg : RunCfg) (idx ci : Nat) (st : DriverState α)
    (u : WorkUnit α) (rest : List (WorkUnit α))
    (h : stopSeen cfg.stopThresh st.polls = false)
    (hmem : u.path ∉ st.completed_chunk_paths)
    (hres : u.result = none) :
    runUnits cfg idx ci st (u :: rest) = .error { st with polls := st.polls + 1 } := by
  simp only [runUnits, h]
  rw [if_neg (by simp), if_neg hmem, hres]

theorem runUnits_cons_proc {α : Type} (cfg : RunCfg) (idx ci : Nat) (st : DriverState α)
    (u : WorkUnit α) (rest : List (WorkUnit α)) (chunks : List α)
    (h : stopSeen cfg.stopThresh st.polls = false)
    (hmem : u.path ∉ st.completed_chunk_paths)
    (hres : u.result = some chunks) :
    runUnits cfg idx ci st (u :: rest) =
      (let is_first := decide (idx = 1 ∧ ci = 1 ∧ st.completed_chunk_paths = [])
       let res := append_chunks_to_file st.outFile chunks is_first
       if res.2 then
         runUnits cfg idx (ci + 1)
           { st with
             polls := st.polls + 1
             outFile := res.1
             all_chunks := st.all_chunks ++ chunks
             completed_chunk_paths := st.completed_chunk_paths ++ [u.path]
             progressFile := some (save_progress cfg.output_file
               (st.completed_chunk_paths ++ [u.path]) idx cfg.total_files
               cfg.config cfg.now) } rest
       else
         runUnits cfg idx (ci + 1)
           { st with
             polls := st.polls + 1
             outFile := res.1 } rest) := by
  simp only [runUnits, h]
  rw [if_neg (by simp), if_neg hmem, hres]

theorem runUnits_cons_proc_ok {α : Type} (cfg : RunCfg) (idx ci : Nat)
    (st : DriverState α) (u : WorkUnit α) (rest : List (WorkUnit α))
    (chunks : List α) (o' : Option (List α))
    (h : stopSeen cfg.stopThresh st.polls = false)
    (hmem : u.path ∉ st.completed_chunk_paths)
    (hres : u.result = some chunks)
    (happ : append_chunks_to_file st.outFile chunks
      (decide (idx = 1 ∧ ci = 1 ∧ st.completed_chunk_paths = [])) = (o', true)) :
    runUnits cfg idx ci st (u :: rest) =
      runUnits cfg idx (ci + 1)
        { st with
          polls := st.polls + 1
          outFile := o'
          all_chunks := st.all_chunks ++ chunks
          completed_chunk_paths := st.completed_chunk_paths ++ [u.path]
          progressFile := some (save_progress cfg.output_file
            (st.completed_chunk_paths ++ [u.path]) idx cfg.total_files
            cfg.config cfg.now) } rest := by
  rw [runUnits_cons_proc cfg idx ci st u rest chunks h hmem hres]
  simp only [happ, if_true]

theorem runUnits_cons_proc_fail {α : Type} (cfg : RunCfg) (idx ci : Nat)
    (st : DriverState α) (u : WorkUnit α) (rest : List (WorkUnit α))
    (chunks : List α) (o' : Option (List α))
    (h : stopSeen cfg.stopThresh st.polls = false)
    (hmem : u.path ∉ st.completed_chunk_paths)
    (hres : u.result = some chunks)
    (happ : append_chunks_to_file st.outFile chunks
      (decide (idx = 1 ∧ ci = 1 ∧ st.completed_chunk_paths = [])) = (o', false)) :
    runUnits cfg idx ci st (u :: rest) =
      runUnits cfg idx (ci + 1)
        { st with
          polls := st.polls + 1
          outFile := o' } rest := by
  rw [runUnits_cons_proc cfg idx ci st u rest chunks h hmem hres]
  simp only [happ, Bool.false_eq_true, if_false]

theorem runDocs_nil {α : Type} (cfg : RunCfg) (st : DriverState α) :
    runDocs cfg st [] = .done st := rfl

theorem runDocs_cons_stop {α : Type} (cfg : RunCfg) (st : DriverState α)
    (idx : Nat) (d : Document α) (rest : List (Nat × Document α))
    (h : stopSeen cfg.stopThresh st.polls = true) :
    runDocs cfg st ((idx, d) :: rest) = .stopped { st with polls := st.polls + 1 } := by
  simp only [runDocs, h]
  rfl

theorem runDocs_cons_skip {α : Type} (cfg : RunCfg) (st : DriverState α)
    (idx : Nat) (d : Document α) (rest : List (Nat × Document α))
    (h : stopSeen cfg.stopThresh st.polls = false)
    (hidx : idx < cfg.start_file_idx) :
    runDocs cfg st ((idx, d) :: rest) =
      runDocs cfg { st with polls := st.polls + 1 } rest := by
  simp only [runDocs, h]
  rw [if_neg (by simp), if_pos hidx]

theorem runDocs_cons_run {α : Type} (cfg : RunCfg) (st : DriverState α)
    (idx : Nat) (d : Document α) (rest : List (Nat × Document α))
    (h : stopSeen cfg.stopThresh st.polls = false)
    (hidx : ¬ idx < cfg.start_file_idx) :
    runDocs cfg st ((idx, d) :: rest) =
      (match runUnits cfg idx 1 { st with polls := st.polls + 1 } d.units with
       | .stopped st2 => .stopped st2
       | .error st2 => runDocs cfg st2 rest
       | .done st2 =>
        runDocs cfg { st2 with processed_files := st2.processed_files ++ [d.name] } rest) := by
  simp only [runDocs, h]
  rw [if_neg (by simp), if_neg hidx]

/-! ## Runs in which every unit is already completed (C10) -/

theorem stopSeen_none (polls : Nat) : stopSeen none polls = false := rfl

theorem enumerateFrom_mem_snd {β : Type} :
    ∀ (n : Nat) (l : List β) (p : Nat × β), p ∈ enumerateFrom n l → p.2 ∈ l := by
  intro n l
  induction l generalizing n with
  | nil => intro p hp; simp [enumerateFrom] at hp
  | cons a t ih =>
    intro p hp
    simp only [enumerateFrom, List.mem_cons] at hp
    rcases hp with hp | hp
    · subst hp; exact List.mem_cons_self _ _
    · exact List.mem_cons_of_mem _ (ih (n + 1) p hp)

/-- A unit list every member of which is already recorded completed is
skipped wholesale: only the poll counter advances. -/
theorem runUnits_all_completed {α : Type} (cfg : RunCfg) (idx : Nat)
    (hstop : cfg.stopThresh = none) :
    ∀ (units : List (WorkUnit α)) (ci : Nat) (st : DriverState α),
      (∀ u ∈ units, u.path ∈ st.completed_chunk_paths) →
      runUnits cfg idx ci st units =
        .done { st with polls := st.polls + units.length } := by
  intro units
  induction units with
  | nil =>
    intro ci st _
    rw [runUnits_nil]
    rfl
  | cons u rest ih =>
    intro ci st hmem
    obtain ⟨o, pf, ac, cp, pr, po⟩ := st
    rw [runUnits_cons_skip cfg idx ci ⟨o, pf, ac, cp, pr, po⟩ u rest (by rw [hstop]; rfl)
      (hmem u (List.mem_cons_self u rest))]
    rw [ih (ci + 1) ⟨o, pf, ac, cp, pr, po + 1⟩
      (fun v hv => hmem v (List.mem_cons_of_mem u hv))]
    simp only [List.length_cons]
    have h : po + 1 + rest.length = po + (rest.length + 1) := by omega
    simp only [h]

/-- A document list every unit of which is already completed leaves the
output file, checkpoint, chunk list and completed set unchanged. -/
theorem runDocs_all_completed {α : Type} (cfg : RunCfg)
    (hstop : cfg.stopThresh = none) :
    ∀ (eds : List (Nat × Document α)) (st : DriverState α),
      (∀ p ∈ eds, ∀ u ∈ (p.2 : Document α).units, u.path ∈ st.completed_chunk_paths) →
      ∃ st', runDocs cfg st eds = .done st' ∧
        st'.outFile = st.outFile ∧
        st'.progressFile = st.progressFile ∧
        st'.all_chunks = st.all_chunks ∧
        st'.completed_chunk_paths = st.completed_chunk_paths := by
  intro eds
  induction eds with
  | nil =>
    intro st _
    exact ⟨st, runDocs_nil cfg st, rfl, rfl, rfl, rfl⟩
  | cons p rest ih =>
    obtain ⟨idx, d⟩ := p
    intro st hmem
    by_cases hidx : idx < cfg.start_file_idx
    · rw [runDocs_cons_skip cfg st idx d rest (by rw [hstop]; rfl) hidx]
      exact ih { st with polls := st.polls + 1 }
        (fun q hq u hu => hmem q (List.mem_cons_of_mem _ hq) u hu)
    · rw [runDocs_cons_run cfg st idx d rest (by rw [hstop]; rfl) hidx]
      rw [runUnits_all_completed cfg idx hstop d.units 1 { st with polls := st.polls + 1 }
        (fun u hu => hmem (idx, d) (List.mem_cons_self _ _) u hu)]
      exact ih _ (fun q hq u hu => hmem q (List.mem_cons_of_mem _ hq) u hu)

/-- C10: a `resume=true` run in which every Work Unit is already listed in
the loaded checkpoint's completed set produces no in-memory chunks, so
`chunk_documents` returns the no-chunks failure, does not clear the
checkpoint file, and leaves the output file untouched even though it
already holds the complete result. -/
theorem fully_completed_resume_no_chunks {α : Type}
    (docs : List (Document α)) (output_file : String) (params : JobParams)
    (pd : ProgressData) (diskOut : Option (List α)) (now : ℚ)
    (hdocs : docs ≠ [])
    (hresume : params.resume = true)
    (hfresh : now - pd.timestamp ≤ 7 * 86400)
    (hall : ∀ d ∈ docs, ∀ u ∈ d.units, u.path ∈ pd.completed_chunks) :
    (chunk_documents docs output_file params (some pd) diskOut now none).1 =
      { success := false, error := some "No chunks generated from documents" } ∧
    (chunk_documents docs output_file params (some pd) diskOut now none).2.progressFile
      = some pd ∧
    (chunk_documents docs output_file params (some pd) diskOut now none).2.outFile
      = diskOut := by
  have hempty : docs.isEmpty = false := by
    cases docs with
    | nil => exact absurd rfl hdocs
    | cons a t => rfl
  have hload : load_progress (some pd) now = some pd := load_progress_fresh pd now hfresh
  unfold chunk_documents
  rw [hempty, hresume]
  simp only [Bool.false_eq_true, if_false, if_true, hload, Option.map_some', Option.getD_some]
  obtain ⟨st', hrun, ho, hp, ha, hc⟩ :=
    runDocs_all_completed (α := α)
      { stopThresh := none, start_file_idx := pd.current_file_idx
        output_file := output_file, total_files := docs.length
        config := configOfParams params, now := now }
      rfl (enumerateFrom 1 docs)
      { outFile := diskOut, progressFile := some pd, all_chunks := []
        completed_chunk_paths := pd.completed_chunks, processed_files := [], polls := 0 }
      (fun p hp u hu => hall p.2 (enumerateFrom_mem_snd 1 docs p hp) u hu)
  rw [hrun]
  have hae : st'.all_chunks.isEmpty = true := by
    rw [ha]
    rfl
  simp [hae, hp, ho]

/-! ## Runs without an output file (C9) -/

theorem enumerateFrom_mem_fst_ge {β : Type} :
    ∀ (n : Nat) (l : List β) (p : Nat × β), p ∈ enumerateFrom n l → n ≤ p.1 := by
  intro n l
  induction l generalizing n with
  | nil => intro p hp; simp [enumerateFrom] at hp
  | cons a t ih =>
    intro p hp
    simp only [enumerateFrom, List.mem_cons] at hp
    rcases hp with hp | hp
    · subst hp; exact le_refl n
    · exact le_trans (Nat.le_succ n) (ih (n + 1) p hp)

/-- When the output file is absent and the document index is not 1, no unit
of the document can write anything: appends fail, nothing is checkpointed,
and the state is unchanged apart from the poll counter. -/
theorem runUnits_no_output {α : Type} (cfg : RunCfg) (idx : Nat)
    (hstop : cfg.stopThresh = none) (hidx : idx ≠ 1) :
    ∀ (units : List (WorkUnit α)) (ci : Nat) (st : DriverState α),
      st.outFile = none →
      ∃ st', (runUnits cfg idx ci st units = .done st' ∨
              runUnits cfg idx ci st units = .error st') ∧
        st'.outFile = none ∧
        st'.progressFile = st.progressFile ∧
        st'.all_chunks = st.all_chunks ∧
        st'.completed_chunk_paths = st.completed_chunk_paths ∧
        st'.processed_files = st.processed_files := by
  intro units
  induction units with
  | nil =>
    intro ci st hout
    exact ⟨st, Or.inl (runUnits_nil cfg idx ci st), hout, rfl, rfl, rfl, rfl⟩
  | cons u rest ih =>
    intro ci st hout
    by_cases hmem : u.path ∈ st.completed_chunk_paths
    · rw [runUnits_cons_skip cfg idx ci st u rest (by rw [hstop]; rfl) hmem]
      exact ih (ci + 1) { st with polls := st.polls + 1 } hout
    · cases hres : u.result with
      | none =>
        rw [runUnits_cons_error cfg idx ci st u rest (by rw [hstop]; rfl) hmem hres]
        exact ⟨{ st with polls := st.polls + 1 }, Or.inr rfl, hout, rfl, rfl, rfl, rfl⟩
      | some chunks =>
        rw [runUnits_cons_proc cfg idx ci st u rest chunks (by rw [hstop]; rfl) hmem hres]
        have hisf : decide (idx = 1 ∧ ci = 1 ∧ st.completed_chunk_paths = []) = false := by
          simp [hidx]
        simp only [hisf, hout, append_chunks_to_file, Bool.false_eq_true, if_false]
        exact ih (ci + 1) { st with polls := st.polls + 1, outFile := none } rfl

/-- The document loop on documents with index at least 2, run with no output
file on disk: nothing is ever written or checkpointed. -/
theorem runDocs_no_output {α : Type} (cfg : RunCfg)
    (hstop : cfg.stopThresh = none) :
    ∀ (eds : List (Nat × Document α)) (st : DriverState α),
      (∀ p ∈ eds, (p.1 : Nat) ≠ 1) →
      st.outFile = none →
      ∃ st', runDocs cfg st eds = .done st' ∧
        st'.outFile = none ∧
        st'.progressFile = st.progressFile ∧
        st'.all_chunks = st.all_chunks ∧
        st'.completed_chunk_paths = st.completed_chunk_paths := by
  intro eds
  induction eds with
  | nil =>
    intro st _ hout
    exact ⟨st, runDocs_nil cfg st, hout, rfl, rfl, rfl⟩
  | cons p rest ih =>
    obtain ⟨idx, d⟩ := p
    intro st hne hout
    by_cases hidx : idx < cfg.start_file_idx
    · rw [runDocs_cons_skip cfg st idx d rest (by rw [hstop]; rfl) hidx]
      exact ih { st with polls := st.polls + 1 }
        (fun q hq => hne q (List.mem_cons_of_mem _ hq)) hout
    · rw [runDocs_cons_run cfg st idx d rest (by rw [hstop]; rfl) hidx]
      obtain ⟨st2, hstep, ho2, hp2, ha2, hc2, hf2⟩ :=
        runUnits_no_output cfg idx hstop (hne (idx, d) (List.mem_cons_self _ _))
          d.units 1 { st with polls := st.polls + 1 } hout
      rcases hstep with hstep | hstep
      · rw [hstep]
        obtain ⟨st', hrun, ho', hp', ha', hc'⟩ :=
          ih { st2 with processed_files := st2.processed_files ++ [d.name] }
            (fun q hq => hne q (List.mem_cons_of_mem _ hq)) ho2
        exact ⟨st', hrun, ho', by rw [hp', hp2], by rw [ha', ha2], by rw [hc', hc2]⟩
      · rw [hstep]
        obtain ⟨st', hrun, ho', hp', ha', hc'⟩ :=
          ih st2 (fun q hq => hne q (List.mem_cons_of_mem _ hq)) ho2
        exact ⟨st', hrun, ho', by rw [hp', hp2], by rw [ha', ha2], by rw [hc', hc2]⟩

/-- A document loop whose first document (index 1) raises on its first unit,
entered with no output file: the error is caught, every later append fails,
and nothing is written or checkpointed. -/
theorem runDocs_first_doc_fails {α : Type} (cfg : RunCfg)
    (hstop : cfg.stopThresh = none) (hstart : cfg.start_file_idx = 1)
    (bad : Document α) (u0 : WorkUnit α) (us : List (WorkUnit α))
    (rest : List (Document α)) (st1 : DriverState α)
    (hunits : bad.units = u0 :: us)
    (hfail : u0.result = none)
    (hout : st1.outFile = none)
    (hcomp : st1.completed_chunk_paths = []) :
    ∃ st', runDocs cfg st1 ((1, bad) :: enumerateFrom 2 rest) = .done st' ∧
      st'.outFile = none ∧
      st'.progressFile = st1.progressFile ∧
      st'.all_chunks = st1.all_chunks := by
  obtain ⟨st', hrun, ho', hp', ha', hc'⟩ :=
    runDocs_no_output cfg hstop (enumerateFrom 2 rest)
      { st1 with polls := st1.polls + 1 + 1 }
      (fun q hq => by
        have := enumerateFrom_mem_fst_ge 2 rest q hq
        omega)
      (by simpa using hout)
  refine ⟨st', ?_, ho', by simpa using hp', by simpa using ha'⟩
  rw [runDocs_cons_run cfg st1 1 bad (enumerateFrom 2 rest) (by rw [hstop]; rfl)
    (by omega)]
  rw [hunits]
  rw [runUnits_cons_error cfg 1 1 { st1 with polls := st1.polls + 1 } u0 us
    (by rw [hstop]; rfl) (by simp [hcomp]) hfail]
  exact hrun

/-- C9: `append_chunks_to_file` creates the output file only on a first
write; consequently a fresh run whose first enumerated document raises on
its first Work Unit never creates the output file, never checkpoints a
unit, and fails with the no-chunks error even when all later documents
convert and chunk successfully. -/
theorem first_document_failure_no_output {α : Type}
    (bad : Document α) (rest : List (Document α)) (output_file : String)
    (params : JobParams) (diskProgress : Option ProgressData) (now : ℚ)
    (u0 : WorkUnit α) (us : List (WorkUnit α))
    (hunits : bad.units = u0 :: us)
    (hfail : u0.result = none)
    (hresume : params.resume = false)
    (hsucc : ∀ d ∈ rest, ∀ u ∈ d.units, u.result ≠ none) :
    (∀ chunks : List α,
      append_chunks_to_file (none : Option (List α)) chunks false = (none, false)) ∧
    (∀ chunks : List α,
      (append_chunks_to_file (none : Option (List α)) chunks true).1 = some chunks) ∧
    (chunk_documents (bad :: rest) output_file params diskProgress none now none).1 =
      { success := false, error := some "No chunks generated from documents" } ∧
    (chunk_documents (bad :: rest) output_file params diskProgress none now none).2.outFile
      = none ∧
    (chunk_documents (bad :: rest) output_file params diskProgress none now none).2.progressFile
      = diskProgress := by
  refine ⟨fun chunks => rfl, fun chunks => rfl, ?_⟩
  unfold chunk_documents
  rw [hresume]
  simp only [List.isEmpty_cons, Bool.false_eq_true, if_false, Option.map_none',
    Option.getD_none]
  obtain ⟨st', hrun, ho', hp', ha'⟩ :=
    runDocs_first_doc_fails (α := α)
      { stopThresh := none, start_file_idx := 1, output_file := output_file
        total_files := (bad :: rest).length, config := configOfParams params, now := now }
      rfl rfl bad u0 us rest
      { outFile := none, progressFile := diskProgress, all_chunks := []
        completed_chunk_paths := [], processed_files := [], polls := 0 }
      hunits hfail rfl rfl
  rw [show enumerateFrom 1 (bad :: rest) = (1, bad) :: enumerateFrom 2 rest from rfl]
  rw [hrun]
  have hae : st'.all_chunks.isEmpty = true := by
    rw [ha']
    rfl
  simp [hae, ho', hp']

/-- Witness for C9: two documents, the first raising, the second producing a
chunk — the job fails with the no-chunks error and writes nothing. -/
theorem first_document_failure_no_output_witness :
    (chunk_documents [⟨"a", [⟨"a", none⟩]⟩, ⟨"b", [⟨"b", some [3]⟩]⟩] "o"
        ⟨512, true, true, false, false, false, true, true, 100, false, 4, 4⟩
        none none 0 none).1 =
      { success := false, error := some "No chunks generated from documents" } ∧
    (chunk_documents [⟨"a", [⟨"a", none⟩]⟩, ⟨"b", [⟨"b", some [3]⟩]⟩] "o"
        ⟨512, true, true, false, false, false, true, true, 100, false, 4, 4⟩
        none none 0 none).2.outFile = none ∧
    (chunk_documents [⟨"a", [⟨"a", none⟩]⟩, ⟨"b", [⟨"b", some [3]⟩]⟩] "o"
        ⟨512, true, true, false, false, false, true, true, 100, false, 4, 4⟩
        none none 0 none).2.progressFile = none := by
  have h := first_document_failure_no_output (α := Nat) ⟨"a", [⟨"a", none⟩]⟩
    [⟨"b", [⟨"b", some [3]⟩]⟩] "o"
    ⟨512, true, true, false, false, false, true, true, 100, false, 4, 4⟩
    none 0 ⟨"a", none⟩ [] rfl rfl rfl (by decide)
  exact ⟨h.2.2.1, h.2.2.2.1, h.2.2.2.2⟩

/-- Witness for C10: a single document whose sole unit is already recorded
in a fresh checkpoint — the run fails with the no-chunks error, the
checkpoint survives and the complete output file is untouched. -/
theorem fully_completed_resume_no_chunks_witness :
    (chunk_documents [⟨"d", [⟨"u", some [7]⟩]⟩] "o"
        ⟨512, true, true, false, false, false, true, true, 100, true, 4, 4⟩
        (some ⟨"o", ["u"], 1, 1, configOfParams
          ⟨512, true, true, false, false, false, true, true, 100, true, 4, 4⟩, 0⟩)
        (some [7]) 5 none).1 =
      { success := false, error := some "No chunks generated from documents" } ∧
    (chunk_documents [⟨"d", [⟨"u", some [7]⟩]⟩] "o"
        ⟨512, true, true, false, false, false, true, true, 100, true, 4, 4⟩
        (some ⟨"o", ["u"], 1, 1, configOfParams
          ⟨512, true, true, false, false, false, true, true, 100, true, 4, 4⟩, 0⟩)
        (some [7]) 5 none).2.progressFile =
      some ⟨"o", ["u"], 1, 1, configOfParams
        ⟨512, true, true, false, false, false, true, true, 100, true, 4, 4⟩, 0⟩ ∧
    (chunk_documents [⟨"d", [⟨"u", some [7]⟩]⟩] "o"
        ⟨512, true, true, false, false, false, true, true, 100, true, 4, 4⟩
        (some ⟨"o", ["u"], 1, 1, configOfParams
          ⟨512, true, true, false, false, false, true, true, 100, true, 4, 4⟩, 0⟩)
        (some [7]) 5 none).2.outFile = some [7] :=
  fully_completed_resume_no_chunks [⟨"d", [⟨"u", some [7]⟩]⟩] "o"
    ⟨512, true, true, false, false, false, true, true, 100, true, 4, 4⟩
    ⟨"o", ["u"], 1, 1, configOfParams
      ⟨512, true, true, false, false, false, true, true, 100, true, 4, 4⟩, 0⟩
    (some [7]) 5 (by simp) rfl (by norm_num) (by decide)

/-! ## C3: behaviour at a cooperative stop (corrected: the top-of-document
branch at lines 580-591 returns WITHOUT calling save_progress; only the
before-unit branch at lines 613-625 saves) -/

/-- The checkpoint on disk either records exactly the current completed set
(saved by `save_progress` for some in-progress index), or is untouched since
the run began with the completed set unchanged as well. -/
def CheckpointCurrent {α : Type} (cfg : RunCfg) (initPF : Option ProgressData)
    (initComp : List String) (st : DriverState α) : Prop :=
  (∃ i, st.progressFile = some (save_progress cfg.output_file
    st.completed_chunk_paths i cfg.total_files cfg.config cfg.now)) ∨
  (st.progressFile = initPF ∧ st.completed_chunk_paths = initComp)

theorem runUnits_checkpoint_inv {α : Type} (cfg : RunCfg) (idx : Nat)
    (initPF : Option ProgressData) (initComp : List String) :
    ∀ (units : List (WorkUnit α)) (ci : Nat) (st st' : DriverState α),
      CheckpointCurrent cfg initPF initComp st →
      (runUnits cfg idx ci st units = .stopped st' ∨
       runUnits cfg idx ci st units = .done st' ∨
       runUnits cfg idx ci st units = .error st') →
      CheckpointCurrent cfg initPF initComp st' := by
  intro units
  induction units with
  | nil =>
    intro ci st st' hinv hout
    rcases hout with h | h | h
    · exact absurd h (by rw [runUnits_nil]; intro hc; cases hc)
    · rw [runUnits_nil] at h
      cases h
      exact hinv
    · exact absurd h (by rw [runUnits_nil]; intro hc; cases hc)
  | cons u rest ih =>
    intro ci st st' hinv hout
    cases hseen : stopSeen cfg.stopThresh st.polls with
    | true =>
      rw [runUnits_cons_stop cfg idx ci st u rest hseen] at hout
      rcases hout with h | h | h
      · cases h
        exact Or.inl ⟨idx, rfl⟩
      · cases h
      · cases h
    | false =>
      have hinv1 : CheckpointCurrent cfg initPF initComp
          { st with polls := st.polls + 1 } := hinv
      by_cases hmem : u.path ∈ st.completed_chunk_paths
      · rw [runUnits_cons_skip cfg idx ci st u rest hseen hmem] at hout
        exact ih (ci + 1) { st with polls := st.polls + 1 } st' hinv1 hout
      · cases hres : u.result with
        | none =>
          rw [runUnits_cons_error cfg idx ci st u rest hseen hmem hres] at hout
          rcases hout with h | h | h
          · cases h
          · cases h
          · cases h
            exact hinv1
        | some chunks =>
          rcases happ : append_chunks_to_file st.outFile chunks
              (decide (idx = 1 ∧ ci = 1 ∧ st.completed_chunk_paths = [])) with ⟨o', ok⟩
          cases ok with
          | true =>
            rw [runUnits_cons_proc_ok cfg idx ci st u rest chunks o'
              hseen hmem hres happ] at hout
            exact ih (ci + 1)
              { st with
                polls := st.polls + 1
                outFile := o'
                all_chunks := st.all_chunks ++ chunks
                completed_chunk_paths := st.completed_chunk_paths ++ [u.path]
                progressFile := some (save_progress cfg.output_file
                  (st.completed_chunk_paths ++ [u.path]) idx cfg.total_files
                  cfg.config cfg.now) } st' (Or.inl ⟨idx, rfl⟩) hout
          | false =>
            rw [runUnits_cons_proc_fail cfg idx ci st u rest chunks o'
              hseen hmem hres happ] at hout
            exact ih (ci + 1)
              { st with
                polls := st.polls + 1
                outFile := o' } st' hinv hout

theorem runDocs_checkpoint_inv {α : Type} (cfg : RunCfg)
    (initPF : Option ProgressData) (initComp : List String) :
    ∀ (eds : List (Nat × Document α)) (st st' : DriverState α),
      CheckpointCurrent cfg initPF initComp st →
      (runDocs cfg st eds = .stopped st' ∨ runDocs cfg st eds = .done st') →
      CheckpointCurrent cfg initPF initComp st' := by
  intro eds
  induction eds with
  | nil =>
    intro st st' hinv hout
    rcases hout with h | h
    · exact absurd h (by rw [runDocs_nil]; intro hc; cases hc)
    · rw [runDocs_nil] at h
      cases h
      exact hinv
  | cons p rest ih =>
    obtain ⟨idx, d⟩ := p
    intro st st' hinv hout
    cases hseen : stopSeen cfg.stopThresh st.polls with
    | true =>
      rw [runDocs_cons_stop cfg st idx d rest hseen] at hout
      rcases hout with h | h
      · cases h
        exact hinv
      · cases h
    | false =>
      have hinv1 : CheckpointCurrent cfg initPF initComp
          { st with polls := st.polls + 1 } := hinv
      by_cases hidx : idx < cfg.start_file_idx
      · rw [runDocs_cons_skip cfg st idx d rest hseen hidx] at hout
        exact ih { st with polls := st.polls + 1 } st' hinv1 hout
      · rw [runDocs_cons_run cfg st idx d rest hseen hidx] at hout
        rcases hu : runUnits cfg idx 1 { st with polls := st.polls + 1 } d.units with
          st2 | st2 | st2
        · rw [hu] at hout
          simp only at hout
          rcases hout with h | h
          · cases h
            exact runUnits_checkpoint_inv cfg idx initPF initComp d.units 1
              { st with polls := st.polls + 1 } st' hinv1 (Or.inl hu)
          · cases h
        · rw [hu] at hout
          simp only at hout
          exact ih st2 st'
            (runUnits_checkpoint_inv cfg idx initPF initComp d.units 1
              { st with polls := st.polls + 1 } st2 hinv1 (Or.inr (Or.inr hu))) hout
        · rw [hu] at hout
          simp only at hout
          have hinv2 := runUnits_checkpoint_inv cfg idx initPF initComp d.units 1
            { st with polls := st.polls + 1 } st2 hinv1 (Or.inr (Or.inl hu))
          exact ih { st2 with processed_files := st2.processed_files ++ [d.name] }
            st' hinv2 hout

/-- C3 amended: whenever the run ends because the stop flag was observed —
at the top of the document loop or before a Work Unit — the returned result
has success=false, the "Stopped by user" error, resumable=true and the
count of completed parts; the before-unit branch persists the current
Checkpoint Record via save_progress before returning, while the
top-of-document-loop branch returns without saving, so on return the disk
checkpoint either records exactly the final completed set (from the
before-unit save or the save after the last completed unit) or, when no
save at all happened during the run, is unchanged from entry with the
completed set unchanged as well. -/
theorem stop_flag_result_and_checkpoint {α : Type}
    (docs : List (Document α)) (output_file : String) (params : JobParams)
    (diskProgress : Option ProgressData) (diskOut : Option (List α))
    (now : ℚ) (t : Nat)
    (h : (chunk_documents docs output_file params diskProgress diskOut now
      (some t)).1.resumable = some true) :
    (chunk_documents docs output_file params diskProgress diskOut now
      (some t)).1.success = false ∧
    (chunk_documents docs output_file params diskProgress diskOut now
      (some t)).1.error = some "Stopped by user" ∧
    (chunk_documents docs output_file params diskProgress diskOut now
      (some t)).1.completed_parts = some (chunk_documents docs output_file params
        diskProgress diskOut now (some t)).2.completed_chunk_paths.length ∧
    ((∃ i, (chunk_documents docs output_file params diskProgress diskOut now
        (some t)).2.progressFile = some (save_progress output_file
          (chunk_documents docs output_file params diskProgress diskOut now
            (some t)).2.completed_chunk_paths i docs.length
          (configOfParams params) now)) ∨
     ((chunk_documents docs output_file params diskProgress diskOut now
        (some t)).2.progressFile = diskProgress ∧
      (chunk_documents docs output_file params diskProgress diskOut now
        (some t)).2.completed_chunk_paths =
        ((if params.resume = true then load_progress diskProgress now
          else none).map (fun pd => pd.completed_chunks)).getD [])) := by
  revert h
  unfold chunk_documents
  cases hempty : docs.isEmpty with
  | true =>
    intro h
    simp at h
  | false =>
    simp only [Bool.false_eq_true, if_false]
    rcases hrd : runDocs
        { stopThresh := some t
          start_file_idx := ((if params.resume = true then
            load_progress diskProgress now else none).map
            (fun pd => pd.current_file_idx)).getD 1
          output_file := output_file, total_files := docs.length
          config := configOfParams params, now := now }
        { outFile := diskOut, progressFile := diskProgress, all_chunks := []
          completed_chunk_paths := ((if params.resume = true then
            load_progress diskProgress now else none).map
            (fun pd => pd.completed_chunks)).getD []
          processed_files := [], polls := 0 }
        (enumerateFrom 1 docs) with st | st
    · intro _
      refine ⟨rfl, rfl, rfl, ?_⟩
      exact runDocs_checkpoint_inv _ diskProgress _ (enumerateFrom 1 docs) _ st
        (Or.inr ⟨rfl, rfl⟩) (Or.inl hrd)
    · intro h
      exfalso
      revert h
      cases hac : st.all_chunks.isEmpty with
      | true => simp [hac]
      | false => simp [hac]

/-- C3 counterexample: a run whose stop flag is observed at the very first
poll — the top of the document loop — returns the resumable stop result
but never calls save_progress: the progress file is still absent at exit,
although the claim requires the driver to persist the Checkpoint Record
before returning. -/
theorem stop_at_document_loop_does_not_save :
    (chunk_documents [⟨"a", [⟨"a", some [1]⟩]⟩] "o"
        (⟨512, true, true, false, false, false, true, true, 100, false, 4, 4⟩ : JobParams)
        none (none : Option (List Nat)) 0 (some 0)).1 =
      { success := false, error := some "Stopped by user", resumable := some true,
        completed_parts := some 0 } ∧
    (chunk_documents [⟨"a", [⟨"a", some [1]⟩]⟩] "o"
        (⟨512, true, true, false, false, false, true, true, 100, false, 4, 4⟩ : JobParams)
        none (none : Option (List Nat)) 0 (some 0)).2.progressFile = none := by
  exact ⟨rfl, rfl⟩

/-- Witness for the amended C3: a run stopped before its second Work Unit
reports the resumable failure and leaves a checkpoint recording exactly the
completed set. -/
theorem stop_flag_result_and_checkpoint_witness :
    (chunk_documents [⟨"a", [⟨"a1", some [1]⟩, ⟨"a2", some [2]⟩]⟩] "o"
        (⟨512, true, true, false, false, false, true, true, 100, false, 4, 4⟩ : JobParams)
        none (none : Option (List Nat)) 0 (some 2)).1.resumable = some true ∧
    (chunk_documents [⟨"a", [⟨"a1", some [1]⟩, ⟨"a2", some [2]⟩]⟩] "o"
        (⟨512, true, true, false, false, false, true, true, 100, false, 4, 4⟩ : JobParams)
        none (none : Option (List Nat)) 0 (some 2)).1.success = false ∧
    ((∃ i, (chunk_documents [⟨"a", [⟨"a1", some [1]⟩, ⟨"a2", some [2]⟩]⟩] "o"
        (⟨512, true, true, false, false, false, true, true, 100, false, 4, 4⟩ : JobParams)
        none (none : Option (List Nat)) 0 (some 2)).2.progressFile =
        some (save_progress "o"
          (chunk_documents [⟨"a", [⟨"a1", some [1]⟩, ⟨"a2", some [2]⟩]⟩] "o"
            (⟨512, true, true, false, false, false, true, true, 100, false, 4, 4⟩ : JobParams)
            none (none : Option (List Nat)) 0 (some 2)).2.completed_chunk_paths i 1
          (configOfParams
            (⟨512, true, true, false, false, false, true, true, 100, false, 4, 4⟩ : JobParams)) 0)) ∨
     ((chunk_documents [⟨"a", [⟨"a1", some [1]⟩, ⟨"a2", some [2]⟩]⟩] "o"
        (⟨512, true, true, false, false, false, true, true, 100, false, 4, 4⟩ : JobParams)
        none (none : Option (List Nat)) 0 (some 2)).2.progressFile = none ∧
      (chunk_documents [⟨"a", [⟨"a1", some [1]⟩, ⟨"a2", some [2]⟩]⟩] "o"
        (⟨512, true, true, false, false, false, true, true, 100, false, 4, 4⟩ : JobParams)
        none (none : Option (List Nat)) 0 (some 2)).2.completed_chunk_paths =
        ((if (⟨512, true, true, false, false, false, true, true, 100, false, 4, 4⟩ : JobParams).resume = true
          then load_progress none 0 else none).map
          (fun pd => pd.completed_chunks)).getD [])) := by
  have h := stop_flag_result_and_checkpoint (α := Nat)
    [⟨"a", [⟨"a1", some [1]⟩, ⟨"a2", some [2]⟩]⟩] "o"
    ⟨512, true, true, false, false, false, true, true, 100, false, 4, 4⟩
    none none 0 2 rfl
  exact ⟨rfl, h.1, h.2.2.2⟩

/-! ## List bookkeeping for unit sequences -/

/-- The paths of a unit list, in order. -/
def pathsOf {α : Type} (units : List (WorkUnit α)) : List String :=
  units.map (fun u => u.path)

/-- The chunks of a unit list, in order. -/
def chunksOf {α : Type} (units : List (WorkUnit α)) : List α :=
  units.flatMap unitChunks

theorem pathsOf_nil {α : Type} : pathsOf ([] : List (WorkUnit α)) = [] := rfl

theorem pathsOf_cons {α : Type} (u : WorkUnit α) (us : List (WorkUnit α)) :
    pathsOf (u :: us) = u.path :: pathsOf us := rfl

theorem pathsOf_append {α : Type} (l1 l2 : List (WorkUnit α)) :
    pathsOf (l1 ++ l2) = pathsOf l1 ++ pathsOf l2 := List.map_append _ _ _

theorem chunksOf_nil {α : Type} : chunksOf ([] : List (WorkUnit α)) = [] := rfl

theorem chunksOf_cons {α : Type} (u : WorkUnit α) (us : List (WorkUnit α)) :
    chunksOf (u :: us) = unitChunks u ++ chunksOf us := List.flatMap_cons _ _ _

theorem chunksOf_append {α : Type} (l1 l2 : List (WorkUnit α)) :
    chunksOf (l1 ++ l2) = chunksOf l1 ++ chunksOf l2 := List.flatMap_append _ _ _

theorem allPaths_append {α : Type} (l1 l2 : List (Document α)) :
    allPaths (l1 ++ l2) = allPaths l1 ++ allPaths l2 := List.flatMap_append _ _ _

theorem allPaths_cons {α : Type} (d : Document α) (l : List (Document α)) :
    allPaths (d :: l) = pathsOf d.units ++ allPaths l := List.flatMap_cons _ _ _

theorem allChunksOf_append {α : Type} (l1 l2 : List (Document α)) :
    allChunksOf (l1 ++ l2) = allChunksOf l1 ++ allChunksOf l2 := List.flatMap_append _ _ _

theorem allChunksOf_cons {α : Type} (d : Document α) (l : List (Document α)) :
    allChunksOf (d :: l) = chunksOf d.units ++ allChunksOf l := List.flatMap_cons _ _ _

theorem enumerateFrom_append {β : Type} :
    ∀ (l1 l2 : List β) (n : Nat),
      enumerateFrom n (l1 ++ l2) =
        enumerateFrom n l1 ++ enumerateFrom (n + l1.length) l2 := by
  intro l1
  induction l1 with
  | nil => intro l2 n; simp [enumerateFrom]
  | cons a t ih =>
    intro l2 n
    simp only [List.cons_append, enumerateFrom, List.length_cons]
    have ha : t.append l2 = t ++ l2 := rfl
    rw [ha, ih l2 (n + 1)]
    have h : n + 1 + t.length = n + (t.length + 1) := by omega
    rw [h]

/-- Sequential composition of the document loop. -/
theorem runDocs_append {α : Type} (cfg : RunCfg) :
    ∀ (l1 l2 : List (Nat × Document α)) (st : DriverState α),
      runDocs cfg st (l1 ++ l2) =
        (match runDocs cfg st l1 with
         | .stopped st' => .stopped st'
         | .done st' => runDocs cfg st' l2) := by
  intro l1
  induction l1 with
  | nil =>
    intro l2 st
    rw [List.nil_append, runDocs_nil]
  | cons p rest ih =>
    obtain ⟨idx, d⟩ := p
    intro l2 st
    cases hseen : stopSeen cfg.stopThresh st.polls with
    | true =>
      rw [List.cons_append, runDocs_cons_stop cfg st idx d (rest ++ l2) hseen,
        runDocs_cons_stop cfg st idx d rest hseen]
    | false =>
      by_cases hidx : idx < cfg.start_file_idx
      · rw [List.cons_append, runDocs_cons_skip cfg st idx d (rest ++ l2) hseen hidx,
          runDocs_cons_skip cfg st idx d rest hseen hidx, ih]
      · rw [List.cons_append, runDocs_cons_run cfg st idx d (rest ++ l2) hseen hidx,
          runDocs_cons_run cfg st idx d rest hseen hidx]
        rcases hu : runUnits cfg idx 1 { st with polls := st.polls + 1 } d.units with
          st2 | st2 | st2
        · rfl
        · exact ih l2 st2
        · exact ih l2 { st2 with processed_files := st2.processed_files ++ [d.name] }

/-- Skipping a prefix of already-completed units only advances the counters. -/
theorem runUnits_skip_front {α : Type} (cfg : RunCfg) (idx : Nat)
    (hstop : cfg.stopThresh = none) :
    ∀ (done rest : List (WorkUnit α)) (ci : Nat) (st : DriverState α),
      (∀ u ∈ done, u.path ∈ st.completed_chunk_paths) →
      runUnits cfg idx ci st (done ++ rest) =
        runUnits cfg idx (ci + done.length)
          { st with polls := st.polls + done.length } rest := by
  intro done
  induction done with
  | nil =>
    intro rest ci st _
    rfl
  | cons u dtail ih =>
    intro rest ci st hmem
    obtain ⟨o, pf, ac, cp, pr, po⟩ := st
    rw [List.cons_append, runUnits_cons_skip cfg idx ci ⟨o, pf, ac, cp, pr, po⟩ u
      (dtail ++ rest) (by rw [hstop]; rfl) (hmem u (List.mem_cons_self u dtail))]
    rw [ih rest (ci + 1) ⟨o, pf, ac, cp, pr, po + 1⟩
      (fun v hv => hmem v (List.mem_cons_of_mem u hv))]
    simp only [List.length_cons]
    have h1 : ci + 1 + dtail.length = ci + (dtail.length + 1) := by omega
    have h2 : po + 1 + dtail.length = po + (dtail.length + 1) := by omega
    rw [h1, h2]

/-- Processing a list of fresh, convertible units with the output file
present and a nonempty completed set: every unit is appended and
checkpointed in order. -/
theorem runUnits_process_all {α : Type} (cfg : RunCfg) (idx : Nat)
    (hstop : cfg.stopThresh = none) :
    ∀ (todo : List (WorkUnit α)) (ci : Nat) (st : DriverState α) (buf : List α),
      st.outFile = some buf →
      st.completed_chunk_paths ≠ [] →
      (∀ u ∈ todo, u.path ∉ st.completed_chunk_paths) →
      (∀ u ∈ todo, u.result ≠ none) →
      (pathsOf todo).Nodup →
      ∃ pf, runUnits cfg idx ci st todo =
        .done { st with
          polls := st.polls + todo.length
          outFile := some (buf ++ chunksOf todo)
          all_chunks := st.all_chunks ++ chunksOf todo
          completed_chunk_paths := st.completed_chunk_paths ++ pathsOf todo
          progressFile := pf } := by
  intro todo
  induction todo with
  | nil =>
    intro ci st buf hout _ _ _ _
    obtain ⟨o, pf, ac, cp, pr, po⟩ := st
    simp only at hout
    refine ⟨pf, ?_⟩
    rw [runUnits_nil]
    simp [hout, chunksOf_nil, pathsOf_nil]
  | cons u utail ih =>
    intro ci st buf hout hcomp hfresh hres hnd
    obtain ⟨chunks, hchunks⟩ : ∃ c, u.result = some c := by
      cases hr : u.result with
      | none => exact absurd hr (hres u (List.mem_cons_self u utail))
      | some c => exact ⟨c, rfl⟩
    have hisf : decide (idx = 1 ∧ ci = 1 ∧ st.completed_chunk_paths = []) = false := by
      simp only [decide_eq_false_iff_not]
      intro hc
      exact hcomp hc.2.2
    have happ : append_chunks_to_file st.outFile chunks
        (decide (idx = 1 ∧ ci = 1 ∧ st.completed_chunk_paths = [])) =
        (some (buf ++ chunks), true) := by
      rw [hisf, hout]
      rfl
    rw [runUnits_cons_proc_ok cfg idx ci st u utail chunks (some (buf ++ chunks))
      (by rw [hstop]; rfl) (hfresh u (List.mem_cons_self u utail)) hchunks happ]
    have hnd' : (pathsOf utail).Nodup := by
      rw [pathsOf_cons] at hnd
      exact hnd.of_cons
    have hupath : u.path ∉ pathsOf utail := by
      rw [pathsOf_cons] at hnd
      exact (List.nodup_cons.mp hnd).1
    obtain ⟨pf', hrec⟩ := ih (ci + 1)
      { st with
        polls := st.polls + 1
        outFile := some (buf ++ chunks)
        all_chunks := st.all_chunks ++ chunks
        completed_chunk_paths := st.completed_chunk_paths ++ [u.path]
        progressFile := some (save_progress cfg.output_file
          (st.completed_chunk_paths ++ [u.path]) idx cfg.total_files
          cfg.config cfg.now) }
      (buf ++ chunks) rfl (by simp)
      (fun v hv => by
        simp only [List.mem_append, List.mem_singleton]
        rintro (hin | heq)
        · exact hfresh v (List.mem_cons_of_mem u hv) hin
        · exact hupath (heq ▸ (List.mem_map.mpr ⟨v, hv, rfl⟩)))
      (fun v hv => hres v (List.mem_cons_of_mem u hv)) hnd'
    refine ⟨pf', ?_⟩
    rw [hrec]
    obtain ⟨o, pf, ac, cp, pr, po⟩ := st
    simp only [chunksOf_cons, pathsOf_cons, List.length_cons]
    have hc : unitChunks u = chunks := by
      unfold unitChunks
      rw [hchunks]
      rfl
    rw [hc]
    have h1 : po + 1 + utail.length = po + (utail.length + 1) := by omega
    simp [h1, List.append_assoc]

/-- The units carried by an enumerated document list, in order. -/
def unitsOfEnum {α : Type} (eds : List (Nat × Document α)) : List (WorkUnit α) :=
  eds.flatMap (fun p => p.2.units)

theorem unitsOfEnum_cons {α : Type} (p : Nat × Document α)
    (eds : List (Nat × Document α)) :
    unitsOfEnum (p :: eds) = p.2.units ++ unitsOfEnum eds := List.flatMap_cons _ _ _

/-- Processing a tail of documents none of which is skipped and all of whose
units are fresh and convertible, with the output file present. -/
theorem runDocs_process_tail {α : Type} (cfg : RunCfg)
    (hstop : cfg.stopThresh = none) :
    ∀ (eds : List (Nat × Document α)) (st : DriverState α) (buf : List α),
      st.outFile = some buf →
      st.completed_chunk_paths ≠ [] →
      (∀ p ∈ eds, cfg.start_file_idx ≤ p.1) →
      (∀ p ∈ eds, ∀ u ∈ (p.2 : Document α).units, u.path ∉ st.completed_chunk_paths) →
      (∀ p ∈ eds, ∀ u ∈ (p.2 : Document α).units, u.result ≠ none) →
      (pathsOf (unitsOfEnum eds)).Nodup →
      ∃ st', runDocs cfg st eds = .done st' ∧
        st'.outFile = some (buf ++ chunksOf (unitsOfEnum eds)) ∧
        st'.all_chunks = st.all_chunks ++ chunksOf (unitsOfEnum eds) ∧
        st'.completed_chunk_paths = st.completed_chunk_paths ++ pathsOf (unitsOfEnum eds) ∧
        st'.processed_files = st.processed_files ++ eds.map (fun p => p.2.name) := by
  intro eds
  induction eds with
  | nil =>
    intro st buf hout _ _ _ _ _
    refine ⟨st, runDocs_nil cfg st, ?_, ?_, ?_, ?_⟩ <;>
      simp [hout, unitsOfEnum, chunksOf, pathsOf]
  | cons p rest ih =>
    obtain ⟨idx, d⟩ := p
    intro st buf hout hcomp hge hfresh hres hnd
    rw [runDocs_cons_run cfg st idx d rest (by rw [hstop]; rfl)
      (by have := hge (idx, d) (List.mem_cons_self _ _); omega)]
    obtain ⟨pf1, hu⟩ := runUnits_process_all cfg idx hstop d.units 1
      { st with polls := st.polls + 1 } buf hout hcomp
      (fun u hu => hfresh (idx, d) (List.mem_cons_self _ _) u hu)
      (fun u hu => hres (idx, d) (List.mem_cons_self _ _) u hu)
      (by
        rw [unitsOfEnum_cons, pathsOf_append] at hnd
        exact hnd.of_append_left)
    rw [hu]
    have hndrest : (pathsOf (unitsOfEnum rest)).Nodup := by
      rw [unitsOfEnum_cons, pathsOf_append] at hnd
      exact hnd.of_append_right
    have hdisj : ∀ q ∈ rest, ∀ u ∈ (q.2 : Document α).units,
        u.path ∉ st.completed_chunk_paths ++ pathsOf d.units := by
      intro q hq u hu
      simp only [List.mem_append]
      rintro (hin | hin)
      · exact hfresh q (List.mem_cons_of_mem _ hq) u hu hin
      · rw [unitsOfEnum_cons, pathsOf_append] at hnd
        have humem : u.path ∈ pathsOf (unitsOfEnum rest) := by
          unfold pathsOf unitsOfEnum
          exact List.mem_map.mpr ⟨u, List.mem_flatMap.mpr ⟨q, hq, hu⟩, rfl⟩
        exact (List.disjoint_of_nodup_append hnd) hin humem
    obtain ⟨st', hrun, ho', ha', hc', hp'⟩ := ih
      { st with
        polls := st.polls + 1 + d.units.length
        outFile := some (buf ++ chunksOf d.units)
        all_chunks := st.all_chunks ++ chunksOf d.units
        completed_chunk_paths := st.completed_chunk_paths ++ pathsOf d.units
        progressFile := pf1
        processed_files := st.processed_files ++ [d.name] }
      (buf ++ chunksOf d.units) rfl (by simp [hcomp])
      (fun q hq => hge q (List.mem_cons_of_mem _ hq))
      hdisj
      (fun q hq => hres q (List.mem_cons_of_mem _ hq)) hndrest
    refine ⟨st', ?_, ?_, ?_, ?_, ?_⟩
    · exact hrun
    · rw [ho', unitsOfEnum_cons, chunksOf_append]
      simp [List.append_assoc]
    · rw [ha', unitsOfEnum_cons, chunksOf_append]
      simp [List.append_assoc]
    · rw [hc', unitsOfEnum_cons, pathsOf_append]
      simp [List.append_assoc]
    · rw [hp']
      simp [List.append_assoc]

theorem unitsOfEnum_enumerateFrom {α : Type} :
    ∀ (n : Nat) (l : List (Document α)),
      unitsOfEnum (enumerateFrom n l) = l.flatMap (fun d => d.units) := by
  intro n l
  induction l generalizing n with
  | nil => rfl
  | cons d t ih =>
    simp only [enumerateFrom, unitsOfEnum_cons, List.flatMap_cons, ih (n + 1)]

theorem paths_unitsOfEnum_enumerateFrom {α : Type} (n : Nat) (l : List (Document α)) :
    pathsOf (unitsOfEnum (enumerateFrom n l)) = allPaths l := by
  rw [unitsOfEnum_enumerateFrom]
  unfold pathsOf allPaths unitPaths
  rw [List.map_flatMap]

theorem chunks_unitsOfEnum_enumerateFrom {α : Type} (n : Nat) (l : List (Document α)) :
    chunksOf (unitsOfEnum (enumerateFrom n l)) = allChunksOf l := by
  rw [unitsOfEnum_enumerateFrom]
  unfold chunksOf allChunksOf docChunks
  rw [List.flatMap_assoc]

theorem names_enumerateFrom {α : Type} :
    ∀ (n : Nat) (l : List (Document α)),
      (enumerateFrom n l).map (fun p => p.2.name) = l.map (fun d => d.name) := by
  intro n l
  induction l generalizing n with
  | nil => rfl
  | cons d t ih =>
    simp only [enumerateFrom, List.map_cons, ih (n + 1)]


/-- The first unit of a fresh run (document 1, unit 1, empty completed set)
creates the output file via `is_first`, and the remaining units of the
document append to it. -/
theorem runUnits_fresh_first {α : Type} (cfg : RunCfg)
    (hstop : cfg.stopThresh = none) (u1 : WorkUnit α) (us : List (WorkUnit α))
    (c1 : List α) (st : DriverState α)
    (hcomp : st.completed_chunk_paths = [])
    (hc1 : u1.result = some c1)
    (hnd1 : (u1.path :: pathsOf us).Nodup)
    (hres : ∀ v ∈ us, v.result ≠ none) :
    ∃ pf', runUnits cfg 1 1 st (u1 :: us) =
      .done { st with
        polls := st.polls + (us.length + 1)
        outFile := some (c1 ++ chunksOf us)
        all_chunks := st.all_chunks ++ (c1 ++ chunksOf us)
        completed_chunk_paths := u1.path :: pathsOf us
        progressFile := pf' } := by
  obtain ⟨o, pf, ac, cp, pr, po⟩ := st
  simp only at hcomp
  subst hcomp
  have hmem : u1.path ∉ (⟨o, pf, ac, [], pr, po⟩ : DriverState α).completed_chunk_paths :=
    List.not_mem_nil _
  have happ : append_chunks_to_file
      (⟨o, pf, ac, [], pr, po⟩ : DriverState α).outFile c1
      (decide ((1 : Nat) = 1 ∧ (1 : Nat) = 1 ∧
        (⟨o, pf, ac, [], pr, po⟩ : DriverState α).completed_chunk_paths = [])) =
      (some c1, true) := rfl
  rw [runUnits_cons_proc_ok cfg 1 1 ⟨o, pf, ac, [], pr, po⟩ u1 us c1 (some c1)
    (by rw [hstop]; rfl) hmem hc1 happ]
  obtain ⟨pf1, hrec⟩ := runUnits_process_all cfg 1 hstop us (1 + 1)
    { (⟨o, pf, ac, [], pr, po⟩ : DriverState α) with
      polls := (⟨o, pf, ac, [], pr, po⟩ : DriverState α).polls + 1
      outFile := some c1
      all_chunks := (⟨o, pf, ac, [], pr, po⟩ : DriverState α).all_chunks ++ c1
      completed_chunk_paths :=
        (⟨o, pf, ac, [], pr, po⟩ : DriverState α).completed_chunk_paths ++ [u1.path]
      progressFile := some (save_progress cfg.output_file
        ((⟨o, pf, ac, [], pr, po⟩ : DriverState α).completed_chunk_paths ++ [u1.path]) 1
        cfg.total_files cfg.config cfg.now) }
    c1 rfl (by simp)
    (fun v hv => by
      simp only [List.nil_append, List.mem_singleton]
      intro heq
      exact (List.nodup_cons.mp hnd1).1 (heq ▸ (List.mem_map.mpr ⟨v, hv, rfl⟩)))
    hres (List.nodup_cons.mp hnd1).2
  rw [hrec]
  refine ⟨pf1, ?_⟩
  have h1 : po + 1 + us.length = po + (us.length + 1) := by omega
  simp [h1, List.append_assoc, pathsOf]

/-- A full fresh pass over a nonempty document list with no skips, no stop,
every unit convertible and all unit paths distinct: the first unit creates
the output file, everything else appends, and the output holds exactly the
chunks of all documents in order. -/
theorem runDocs_fresh {α : Type} (cfg : RunCfg)
    (hstop : cfg.stopThresh = none) (hstart : cfg.start_file_idx ≤ 1)
    (docs : List (Document α)) (st : DriverState α)
    (hcomp : st.completed_chunk_paths = [])
    (hne : ∀ d ∈ docs, d.units ≠ [])
    (hsucc : ∀ d ∈ docs, ∀ u ∈ d.units, u.result ≠ none)
    (hnd : (allPaths docs).Nodup)
    (hnonempty : docs ≠ []) :
    ∃ st', runDocs cfg st (enumerateFrom 1 docs) = .done st' ∧
      st'.outFile = some (allChunksOf docs) ∧
      st'.all_chunks = st.all_chunks ++ allChunksOf docs ∧
      st'.completed_chunk_paths = allPaths docs ∧
      st'.processed_files = st.processed_files ++ docs.map (fun d => d.name) := by
  obtain ⟨d1, rest, rfl⟩ : ∃ d1 rest, docs = d1 :: rest := by
    cases docs with
    | nil => exact absurd rfl hnonempty
    | cons a t => exact ⟨a, t, rfl⟩
  obtain ⟨u1, us, hd1⟩ : ∃ u1 us, d1.units = u1 :: us := by
    cases hu : d1.units with
    | nil => exact absurd hu (hne d1 (List.mem_cons_self _ _))
    | cons a t => exact ⟨a, t, rfl⟩
  obtain ⟨c1, hc1⟩ : ∃ c, u1.result = some c := by
    cases hr : u1.result with
    | none =>
      refine absurd hr (hsucc d1 (List.mem_cons_self _ _) u1 ?_)
      rw [hd1]
      exact List.mem_cons_self _ _
    | some c => exact ⟨c, rfl⟩
  have hnd1 : (u1.path :: pathsOf us).Nodup := by
    have := hnd
    rw [allPaths_cons, hd1, pathsOf_cons] at this
    exact this.of_append_left
  obtain ⟨o, pf, ac, cp, pr, po⟩ := st
  simp only at hcomp
  subst hcomp
  rw [show enumerateFrom 1 (d1 :: rest) = (1, d1) :: enumerateFrom 2 rest from rfl]
  rw [runDocs_cons_run cfg ⟨o, pf, ac, [], pr, po⟩ 1 d1 (enumerateFrom 2 rest)
    (by rw [hstop]; rfl) (by omega)]
  rw [hd1]
  obtain ⟨pf1, hu⟩ := runUnits_fresh_first cfg hstop u1 us c1
    { (⟨o, pf, ac, [], pr, po⟩ : DriverState α) with
      polls := (⟨o, pf, ac, [], pr, po⟩ : DriverState α).polls + 1 }
    rfl hc1 hnd1
    (fun v hv => hsucc d1 (List.mem_cons_self _ _) v
      (by rw [hd1]; exact List.mem_cons_of_mem _ hv))
  rw [hu]
  obtain ⟨st', hrun, ho', ha', hc', hp'⟩ := runDocs_process_tail cfg hstop
    (enumerateFrom 2 rest)
    (⟨some (c1 ++ chunksOf us), pf1, ac ++ (c1 ++ chunksOf us),
      u1.path :: pathsOf us, pr ++ [d1.name], po + 1 + (us.length + 1)⟩ : DriverState α)
    (c1 ++ chunksOf us) rfl (by simp)
    (fun p hp => by
      have := enumerateFrom_mem_fst_ge 2 rest p hp
      omega)
    (fun p hp u hu => by
      intro hin
      have hdisj := List.disjoint_of_nodup_append
        (by rw [allPaths_cons, hd1, pathsOf_cons] at hnd; exact hnd)
      refine hdisj hin ?_
      rw [← paths_unitsOfEnum_enumerateFrom 2 rest]
      unfold pathsOf
      refine List.mem_map.mpr ⟨u, ?_, rfl⟩
      unfold unitsOfEnum
      exact List.mem_flatMap.mpr ⟨p, hp, hu⟩)
    (fun p hp u hu => hsucc p.2 (List.mem_cons_of_mem _
      (enumerateFrom_mem_snd 2 rest p hp)) u hu)
    (by
      rw [paths_unitsOfEnum_enumerateFrom 2 rest]
      rw [allPaths_cons] at hnd
      exact hnd.of_append_right)
  refine ⟨st', by exact hrun, ?_, ?_, ?_, ?_⟩
  · rw [ho', chunks_unitsOfEnum_enumerateFrom 2 rest, allChunksOf_cons, hd1,
      chunksOf_cons]
    have hcu : unitChunks u1 = c1 := by
      unfold unitChunks
      rw [hc1]
      rfl
    rw [hcu, List.append_assoc]
  · rw [ha', chunks_unitsOfEnum_enumerateFrom 2 rest, allChunksOf_cons, hd1,
      chunksOf_cons]
    have hcu : unitChunks u1 = c1 := by
      unfold unitChunks
      rw [hc1]
      rfl
    rw [hcu]
    simp [List.append_assoc]
  · rw [hc', paths_unitsOfEnum_enumerateFrom 2 rest, allPaths_cons, hd1,
      pathsOf_cons]
  · rw [hp', names_enumerateFrom 2 rest]
    simp

/-! ## C4: document isolation (corrected: it fails when the raising document
is the first one — see C9 — and holds when the failing document is not the
first) -/

/-- A fresh pass over `pre ++ bad :: post` where `pre` is nonempty, every
unit of `pre` and `post` converts, and `bad` raises on its first unit: the
error is caught at the document boundary and the run completes with exactly
the chunks of `pre` and `post`. -/
theorem runDocs_isolation {α : Type} (cfg : RunCfg)
    (hstop : cfg.stopThresh = none) (hstart : cfg.start_file_idx = 1)
    (pre post : List (Document α)) (bad : Document α)
    (u0 : WorkUnit α) (us : List (WorkUnit α)) (st : DriverState α)
    (hcomp : st.completed_chunk_paths = [])
    (hpre : pre ≠ [])
    (hbadunits : bad.units = u0 :: us)
    (hbadfail : u0.result = none)
    (hne : ∀ d ∈ pre ++ post, d.units ≠ [])
    (hsucc : ∀ d ∈ pre ++ post, ∀ u ∈ d.units, u.result ≠ none)
    (hnd : (allPaths (pre ++ bad :: post)).Nodup) :
    ∃ st', runDocs cfg st (enumerateFrom 1 (pre ++ bad :: post)) = .done st' ∧
      st'.outFile = some (allChunksOf pre ++ allChunksOf post) ∧
      st'.all_chunks = st.all_chunks ++ (allChunksOf pre ++ allChunksOf post) ∧
      st'.processed_files = st.processed_files ++
        (pre.map (fun d => d.name) ++ post.map (fun d => d.name)) := by
  have hndpre : (allPaths pre).Nodup := by
    rw [allPaths_append] at hnd
    exact hnd.of_append_left
  obtain ⟨stPre, hPre, hoP, haP, hcP, hpP⟩ := runDocs_fresh cfg hstop
    (le_of_eq hstart) pre st hcomp
    (fun d hd => hne d (List.mem_append_left _ hd))
    (fun d hd => hsucc d (List.mem_append_left _ hd)) hndpre hpre
  rw [enumerateFrom_append, runDocs_append, hPre]
  rw [show enumerateFrom (1 + pre.length) (bad :: post) =
    (1 + pre.length, bad) :: enumerateFrom (1 + pre.length + 1) post from rfl]
  have hu0fresh : u0.path ∉ stPre.completed_chunk_paths := by
    rw [hcP]
    intro hin
    rw [allPaths_append] at hnd
    refine List.disjoint_of_nodup_append hnd hin ?_
    rw [allPaths_cons, hbadunits, pathsOf_cons]
    simp
  obtain ⟨st', hrun, ho', ha', hc', hp'⟩ := runDocs_process_tail cfg hstop
    (enumerateFrom (1 + pre.length + 1) post)
    { stPre with polls := stPre.polls + 1 + 1 }
    (allChunksOf pre) (by simpa using hoP)
    (by
      simp only
      rw [hcP]
      obtain ⟨d, t, rfl⟩ : ∃ d t, pre = d :: t := by
        cases pre with
        | nil => exact absurd rfl hpre
        | cons a t => exact ⟨a, t, rfl⟩
      obtain ⟨u, uu, hdu⟩ : ∃ u uu, d.units = u :: uu := by
        cases hu : d.units with
        | nil => exact absurd hu (hne d (List.mem_append_left _ (List.mem_cons_self _ _)))
        | cons a t => exact ⟨a, t, rfl⟩
      rw [allPaths_cons, hdu, pathsOf_cons]
      simp)
    (fun p hp => by
      have := enumerateFrom_mem_fst_ge (1 + pre.length + 1) post p hp
      omega)
    (fun p hp u hu => by
      simp only
      rw [hcP]
      intro hin
      rw [allPaths_append] at hnd
      refine List.disjoint_of_nodup_append hnd hin ?_
      rw [allPaths_cons]
      refine List.mem_append_right _ ?_
      rw [← paths_unitsOfEnum_enumerateFrom (1 + pre.length + 1) post]
      unfold pathsOf
      refine List.mem_map.mpr ⟨u, ?_, rfl⟩
      unfold unitsOfEnum
      exact List.mem_flatMap.mpr ⟨p, hp, hu⟩)
    (fun p hp u hu => hsucc p.2 (List.mem_append_right _
      (enumerateFrom_mem_snd _ post p hp)) u hu)
    (by
      rw [paths_unitsOfEnum_enumerateFrom]
      rw [allPaths_append, allPaths_cons] at hnd
      exact hnd.of_append_right.of_append_right)
  refine ⟨st', ?_, ?_, ?_, ?_⟩
  · show runDocs cfg stPre
      ((1 + pre.length, bad) :: enumerateFrom (1 + pre.length + 1) post) =
      DocsOutcome.done st'
    rw [runDocs_cons_run cfg stPre (1 + pre.length) bad
      (enumerateFrom (1 + pre.length + 1) post) (by rw [hstop]; rfl) (by omega)]
    rw [hbadunits]
    rw [runUnits_cons_error cfg (1 + pre.length) 1
      { stPre with polls := stPre.polls + 1 } u0 us (by rw [hstop]; rfl)
      hu0fresh hbadfail]
    exact hrun
  · rw [ho', chunks_unitsOfEnum_enumerateFrom]
  · rw [ha', chunks_unitsOfEnum_enumerateFrom]
    simp only
    rw [haP, List.append_assoc]
  · rw [hp', names_enumerateFrom]
    simp only
    rw [hpP, List.append_assoc]

/-- C4 counterexample: when the single failing document is the FIRST one,
isolation breaks — with a failing first document and a succeeding second
document the job does not report success with 1 processed file, it fails
with the no-chunks error, contrary to the claim. -/
theorem document_isolation_fails_for_first_document :
    (chunk_documents [⟨"a", [⟨"a", none⟩]⟩, ⟨"b", [⟨"b", some [3]⟩]⟩] "o"
        (⟨512, true, true, false, false, false, true, true, 100, false, 4, 4⟩ : JobParams)
        none (none : Option (List Nat)) 0 none).1 =
      { success := false, error := some "No chunks generated from documents" } := by
  exact rfl

/-- C4 amended: for every fresh input set in which one document other than
the first raises on its first Work Unit while all other documents convert
and produce chunks, the exception is caught at the document-loop boundary,
processing continues, and the final result has success=true, with
files_processed counting only the non-failing documents and the output
containing exactly their chunks in order. -/
theorem document_isolation_amended {α : Type}
    (pre post : List (Document α)) (bad : Document α)
    (output_file : String) (params : JobParams)
    (diskProgress : Option ProgressData) (diskOut : Option (List α)) (now : ℚ)
    (u0 : WorkUnit α) (us : List (WorkUnit α))
    (hpre : pre ≠ [])
    (hbadunits : bad.units = u0 :: us)
    (hbadfail : u0.result = none)
    (hresume : params.resume = false)
    (hne : ∀ d ∈ pre ++ post, d.units ≠ [])
    (hsucc : ∀ d ∈ pre ++ post, ∀ u ∈ d.units, u.result ≠ none)
    (hnd : (allPaths (pre ++ bad :: post)).Nodup)
    (hchunks : allChunksOf pre ++ allChunksOf post ≠ []) :
    (chunk_documents (pre ++ bad :: post) output_file params diskProgress
      diskOut now none).1 =
      { success := true,
        chunks_count := some (allChunksOf pre ++ allChunksOf post).length,
        files_processed := some (pre.length + post.length),
        output_file := some output_file } ∧
    (chunk_documents (pre ++ bad :: post) output_file params diskProgress
      diskOut now none).2.outFile = some (allChunksOf pre ++ allChunksOf post) := by
  have hempty : (pre ++ bad :: post).isEmpty = false := by
    cases pre with
    | nil => exact absurd rfl hpre
    | cons a t => rfl
  unfold chunk_documents
  rw [hresume, hempty]
  simp only [Bool.false_eq_true, if_false, Option.map_none', Option.getD_none]
  obtain ⟨st', hrun, ho', ha', hp'⟩ := runDocs_isolation (α := α)
    { stopThresh := none, start_file_idx := 1, output_file := output_file
      total_files := (pre ++ bad :: post).length, config := configOfParams params
      now := now }
    rfl rfl pre post bad u0 us
    { outFile := diskOut, progressFile := diskProgress, all_chunks := []
      completed_chunk_paths := [], processed_files := [], polls := 0 }
    rfl hpre hbadunits hbadfail hne hsucc hnd
  rw [hrun]
  have hae : st'.all_chunks.isEmpty = false := by
    rw [ha']
    simp only [List.nil_append]
    cases hx : allChunksOf pre ++ allChunksOf post with
    | nil => exact absurd hx hchunks
    | cons a t => rfl
  simp only [hae, Bool.false_eq_true, if_false]
  constructor
  · simp only [ha', hp']
    simp [List.length_append]
  · simp only [ho']

/-- Witness for the amended C4: the specification's three-document scenario
with the second document raising — 2 files processed, chunks of documents
1 and 3 only, job-level success. -/
theorem document_isolation_amended_witness :
    (chunk_documents ([⟨"a", [⟨"a", some [1]⟩]⟩] ++
        (⟨"b", [⟨"b", none⟩]⟩ : Document Nat) :: [⟨"c", [⟨"c", some [3]⟩]⟩]) "o"
        (⟨512, true, true, false, false, false, true, true, 100, false, 4, 4⟩ : JobParams)
        none (none : Option (List Nat)) 0 none).1 =
      { success := true, chunks_count := some 2, files_processed := some 2,
        output_file := some "o" } ∧
    (chunk_documents ([⟨"a", [⟨"a", some [1]⟩]⟩] ++
        (⟨"b", [⟨"b", none⟩]⟩ : Document Nat) :: [⟨"c", [⟨"c", some [3]⟩]⟩]) "o"
        (⟨512, true, true, false, false, false, true, true, 100, false, 4, 4⟩ : JobParams)
        none (none : Option (List Nat)) 0 none).2.outFile = some [1, 3] := by
  have h := document_isolation_amended [⟨"a", [⟨"a", some [1]⟩]⟩]
    [⟨"c", [⟨"c", some [3]⟩]⟩] ⟨"b", [⟨"b", none⟩]⟩ "o"
    ⟨512, true, true, false, false, false, true, true, 100, false, 4, 4⟩
    none none 0 ⟨"b", none⟩ [] (by simp) rfl rfl rfl
    (by decide) (by decide) (by decide) (by decide)
  exact ⟨h.1, h.2⟩

/-! ## C1: resume correctness -/

/-- One document's unit loop in a fresh (run-1) pass under a stop threshold:
either the stop flag is observed before some unit `m` and the loop returns
stopped having appended and checkpointed exactly the first `m` units, or it
completes the whole list.  `B` is the output file content on entry (empty
and absent when nothing has been completed yet, in which case this is the
very first unit of the run and `is_first` fires). -/
theorem runUnits_run1 {α : Type} (cfg : RunCfg) (idx : Nat) :
    ∀ (units : List (WorkUnit α)) (ci : Nat) (st : DriverState α) (B : List α),
      (∀ u ∈ units, u.path ∉ st.completed_chunk_paths) →
      (∀ u ∈ units, u.result ≠ none) →
      (pathsOf units).Nodup →
      ((st.completed_chunk_paths = [] ∧ st.outFile = none ∧ idx = 1 ∧ ci = 1 ∧ B = []) ∨
       (st.completed_chunk_paths ≠ [] ∧ st.outFile = some B)) →
      (∃ m, m ≤ units.length ∧ ∃ st',
        runUnits cfg idx ci st units = .stopped st' ∧
        st'.completed_chunk_paths = st.completed_chunk_paths ++ pathsOf (units.take m) ∧
        st'.outFile = (if st'.completed_chunk_paths = [] then none
          else some (B ++ chunksOf (units.take m))) ∧
        st'.progressFile = some (save_progress cfg.output_file
          st'.completed_chunk_paths idx cfg.total_files cfg.config cfg.now)) ∨
      (∃ st', runUnits cfg idx ci st units = .done st' ∧
        st'.completed_chunk_paths = st.completed_chunk_paths ++ pathsOf units ∧
        st'.outFile = (if st'.completed_chunk_paths = [] then none
          else some (B ++ chunksOf units)) ∧
        ((units = [] ∧ st'.progressFile = st.progressFile) ∨
         st'.progressFile = some (save_progress cfg.output_file
           st'.completed_chunk_paths idx cfg.total_files cfg.config cfg.now))) := by
  intro units
  induction units with
  | nil =>
    intro ci st B _ _ _ hctx
    refine Or.inr ⟨st, runUnits_nil cfg idx ci st, by simp [pathsOf], ?_, Or.inl ⟨rfl, rfl⟩⟩
    rcases hctx with ⟨h1, h2, _, _, _⟩ | ⟨h1, h2⟩
    · rw [if_pos h1, h2]
    · rw [if_neg h1, h2]
      simp [chunksOf]
  | cons u utail ih =>
    intro ci st B hfresh hres hnd hctx
    cases hseen : stopSeen cfg.stopThresh st.polls with
    | true =>
      refine Or.inl ⟨0, by omega, _,
        runUnits_cons_stop cfg idx ci st u utail hseen, ?_, ?_, rfl⟩
      · simp [pathsOf]
      · simp only [List.take_zero, chunksOf_nil, List.append_nil]
        rcases hctx with ⟨h1, h2, _, _, _⟩ | ⟨h1, h2⟩
        · rw [if_pos h1]
          exact h2
        · rw [if_neg h1]
          exact h2
    | false =>
      obtain ⟨c, hc⟩ : ∃ c, u.result = some c := by
        cases hr : u.result with
        | none => exact absurd hr (hres u (List.mem_cons_self u utail))
        | some c => exact ⟨c, rfl⟩
      have hcu : unitChunks u = c := by
        unfold unitChunks
        rw [hc]
        rfl
      have happ : append_chunks_to_file st.outFile c
          (decide (idx = 1 ∧ ci = 1 ∧ st.completed_chunk_paths = [])) =
          (some (B ++ c), true) := by
        rcases hctx with ⟨h1, h2, h3, h4, h5⟩ | ⟨h1, h2⟩
        · subst h3
          subst h4
          subst h5
          rw [h1, h2]
          rfl
        · have hisf : decide (idx = 1 ∧ ci = 1 ∧ st.completed_chunk_paths = []) = false := by
            simp only [decide_eq_false_iff_not]
            intro hcontra
            exact h1 hcontra.2.2
          rw [hisf, h2]
          rfl
      rw [runUnits_cons_proc_ok cfg idx ci st u utail c (some (B ++ c)) hseen
        (hfresh u (List.mem_cons_self u utail)) hc happ]
      have hndtail : (pathsOf utail).Nodup := by
        rw [pathsOf_cons] at hnd
        exact hnd.of_cons
      have hupath : u.path ∉ pathsOf utail := by
        rw [pathsOf_cons] at hnd
        exact (List.nodup_cons.mp hnd).1
      have hrec := ih (ci + 1)
        { st with
          polls := st.polls + 1
          outFile := some (B ++ c)
          all_chunks := st.all_chunks ++ c
          completed_chunk_paths := st.completed_chunk_paths ++ [u.path]
          progressFile := some (save_progress cfg.output_file
            (st.completed_chunk_paths ++ [u.path]) idx cfg.total_files
            cfg.config cfg.now) }
        (B ++ c)
        (fun v hv => by
          simp only [List.mem_append, List.mem_singleton]
          rintro (hin | heq)
          · exact hfresh v (List.mem_cons_of_mem u hv) hin
          · exact hupath (heq ▸ (List.mem_map.mpr ⟨v, hv, rfl⟩)))
        (fun v hv => hres v (List.mem_cons_of_mem u hv)) hndtail
        (Or.inr ⟨by simp, rfl⟩)
      rcases hrec with ⟨m', hm', st', heq, hcomp', hout', hpf'⟩ | ⟨st', heq, hcomp', hout', hpf'⟩
      · refine Or.inl ⟨m' + 1, by simpa using Nat.succ_le_succ hm', st', heq, ?_, ?_, hpf'⟩
        · rw [hcomp']
          simp only [List.take_succ_cons, pathsOf_cons]
          simp [List.append_assoc]
        · rw [hout']
          by_cases hsc : st'.completed_chunk_paths = []
          · rw [if_pos hsc, if_pos hsc]
          · rw [if_neg hsc, if_neg hsc]
            simp only [List.take_succ_cons, chunksOf_cons, hcu]
            simp [List.append_assoc]
      · refine Or.inr ⟨st', heq, ?_, ?_, ?_⟩
        · rw [hcomp']
          simp only [pathsOf_cons]
          simp [List.append_assoc]
        · rw [hout']
          by_cases hsc : st'.completed_chunk_paths = []
          · rw [if_pos hsc, if_pos hsc]
          · rw [if_neg hsc, if_neg hsc]
            simp only [chunksOf_cons, hcu]
            simp [List.append_assoc]
        · refine Or.inr ?_
          rcases hpf' with ⟨htl, hpf'⟩ | hpf'
          · subst htl
            rw [hpf']
            simp only
            rw [hcomp']
            simp [pathsOf]
          · exact hpf'

theorem allPaths_snoc {α : Type} (D : List (Document α)) (d : Document α) :
    allPaths (D ++ [d]) = allPaths D ++ pathsOf d.units := by
  rw [allPaths_append, allPaths_cons]
  simp [allPaths]

theorem allChunksOf_snoc {α : Type} (D : List (Document α)) (d : Document α) :
    allChunksOf (D ++ [d]) = allChunksOf D ++ chunksOf d.units := by
  rw [allChunksOf_append, allChunksOf_cons]
  simp [allChunksOf, docChunks]

theorem allPaths_ne_nil {α : Type} (D : List (Document α))
    (hne : ∀ d ∈ D, d.units ≠ []) (h : D ≠ []) : allPaths D ≠ [] := by
  obtain ⟨d, rest, rfl⟩ : ∃ d rest, D = d :: rest := by
    cases D with
    | nil => exact absurd rfl h
    | cons a r => exact ⟨a, r, rfl⟩
  obtain ⟨u, us, hdu⟩ : ∃ u us, d.units = u :: us := by
    cases hu : d.units with
    | nil => exact absurd hu (hne d (List.mem_cons_self _ _))
    | cons a r => exact ⟨a, r, rfl⟩
  rw [allPaths_cons, hdu, pathsOf_cons]
  simp

/-- Characterisation of a fresh (run-1) document loop that returned stopped:
the input splits as `D1 ++ cur :: rest` with the first `m` units of `cur`
completed, the output file holds exactly the chunks completed so far, and
the checkpoint on disk either was never written (nothing completed) or
records exactly the completed set with an in-progress index at most
`|D0 ++ D1| + 1`, every document before that index being fully completed. -/
theorem runDocs_run1_stopped {α : Type} (cfg : RunCfg) (t : Nat)
    (hstop : cfg.stopThresh = some t) (hstart : cfg.start_file_idx = 1)
    (initPF : Option ProgressData) :
    ∀ (tail D0 : List (Document α)) (st st' : DriverState α),
      st.completed_chunk_paths = allPaths D0 →
      st.outFile = (if allPaths D0 = [] then none else some (allChunksOf D0)) →
      ((st.progressFile = initPF ∧ D0 = []) ∨
       (st.progressFile = some (save_progress cfg.output_file (allPaths D0)
          D0.length cfg.total_files cfg.config cfg.now) ∧ D0 ≠ [])) →
      (∀ d ∈ D0, d.units ≠ []) →
      (∀ d ∈ tail, d.units ≠ []) →
      (∀ d ∈ tail, ∀ u ∈ d.units, u.result ≠ none) →
      (allPaths D0 ++ allPaths tail).Nodup →
      runDocs cfg st (enumerateFrom (D0.length + 1) tail) = .stopped st' →
      ∃ D1 cur rest m, tail = D1 ++ cur :: rest ∧ m ≤ cur.units.length ∧
        st'.completed_chunk_paths = allPaths (D0 ++ D1) ++ pathsOf (cur.units.take m) ∧
        st'.outFile = (if st'.completed_chunk_paths = [] then none
          else some (allChunksOf (D0 ++ D1) ++ chunksOf (cur.units.take m))) ∧
        ((st'.progressFile = initPF ∧ st'.completed_chunk_paths = []) ∨
         (∃ s, st'.progressFile = some (save_progress cfg.output_file
            st'.completed_chunk_paths s cfg.total_files cfg.config cfg.now) ∧
            1 ≤ s ∧ s ≤ (D0 ++ D1).length + 1)) := by
  intro tail
  induction tail with
  | nil =>
    intro D0 st st' _ _ _ _ _ _ _ hstep
    rw [show enumerateFrom (D0.length + 1) ([] : List (Document α)) = [] from rfl,
      runDocs_nil] at hstep
    exact DocsOutcome.noConfusion hstep
  | cons cur tail' ih =>
    intro D0 st st' hcomp hout hpf hneD0 hne hsucc hnd hstep
    rw [show enumerateFrom (D0.length + 1) (cur :: tail') =
      (D0.length + 1, cur) :: enumerateFrom (D0.length + 1 + 1) tail' from rfl] at hstep
    cases hseen : stopSeen cfg.stopThresh st.polls with
    | true =>
      rw [runDocs_cons_stop cfg st (D0.length + 1) cur _ hseen] at hstep
      injection hstep with hstep
      subst hstep
      refine ⟨[], cur, tail', 0, by simp, by omega, ?_, ?_, ?_⟩
      · simp [hcomp, pathsOf]
      · simp [hcomp, hout, chunksOf]
      · rcases hpf with ⟨h1, h2⟩ | ⟨h1, h2⟩
        · subst h2
          refine Or.inl ⟨h1, ?_⟩
          simp [hcomp, allPaths, pathsOf]
        · refine Or.inr ⟨D0.length, ?_, ?_, ?_⟩
          · simp [h1, hcomp, pathsOf]
          · obtain ⟨d, r, rfl⟩ : ∃ d r, D0 = d :: r := by
              cases D0 with
              | nil => exact absurd rfl h2
              | cons a r => exact ⟨a, r, rfl⟩
            simp
          · simp
    | false =>
      rw [runDocs_cons_run cfg st (D0.length + 1) cur _ hseen
        (by rw [hstart]; omega)] at hstep
      have hfreshcur : ∀ u ∈ cur.units, u.path ∉
          ({ st with polls := st.polls + 1 } : DriverState α).completed_chunk_paths := by
        intro u hu
        simp only [hcomp]
        intro hin
        refine List.disjoint_of_nodup_append hnd hin ?_
        rw [allPaths_cons]
        exact List.mem_append_left _ (List.mem_map.mpr ⟨u, hu, rfl⟩)
      have hndcur : (pathsOf cur.units).Nodup := by
        have h2 := hnd.of_append_right
        rw [allPaths_cons] at h2
        exact h2.of_append_left
      have hctx : (({ st with polls := st.polls + 1 } :
            DriverState α).completed_chunk_paths = [] ∧
          ({ st with polls := st.polls + 1 } : DriverState α).outFile = none ∧
          D0.length + 1 = 1 ∧ 1 = 1 ∧ allChunksOf D0 = []) ∨
          (({ st with polls := st.polls + 1 } :
            DriverState α).completed_chunk_paths ≠ [] ∧
          ({ st with polls := st.polls + 1 } : DriverState α).outFile =
            some (allChunksOf D0)) := by
        by_cases hD0 : D0 = []
        · subst hD0
          refine Or.inl ⟨by simpa using hcomp, by simpa using hout, rfl, rfl, rfl⟩
        · refine Or.inr ⟨?_, ?_⟩
          · simp only [hcomp]
            exact allPaths_ne_nil D0 hneD0 hD0
          · simp only [hout]
            rw [if_neg (allPaths_ne_nil D0 hneD0 hD0)]
      rcases runUnits_run1 cfg (D0.length + 1) cur.units 1
          { st with polls := st.polls + 1 } (allChunksOf D0) hfreshcur
          (hsucc cur (List.mem_cons_self _ _)) hndcur hctx with
        ⟨m, hm, stU, hUeq, hUcomp, hUout, hUpf⟩ | ⟨stU, hUeq, hUcomp, hUout, hUpf⟩
      · rw [hUeq] at hstep
        simp only at hstep
        injection hstep with hstep
        subst hstep
        refine ⟨[], cur, tail', m, by simp, hm, ?_, ?_, ?_⟩
        · rw [hUcomp]
          simp [hcomp]
        · rw [hUout]
          simp
        · refine Or.inr ⟨D0.length + 1, hUpf, by omega, by simp⟩
      · rw [hUeq] at hstep
        simp only at hstep
        have hcurne : cur.units ≠ [] := hne cur (List.mem_cons_self _ _)
        have hUcompne : stU.completed_chunk_paths ≠ [] := by
          rw [hUcomp]
          simp only [hcomp]
          intro hx
          rcases List.append_eq_nil.mp hx with ⟨_, h2⟩
          exact hcurne (List.map_eq_nil_iff.mp h2)
        have hUpf2 : stU.progressFile = some (save_progress cfg.output_file
            stU.completed_chunk_paths (D0.length + 1) cfg.total_files
            cfg.config cfg.now) := by
          rcases hUpf with ⟨hx, _⟩ | hx
          · exact absurd hx hcurne
          · exact hx
        obtain ⟨D1', cur', rest', m', htl, hm', hcomp', hout', hpf'⟩ :=
          ih (D0 ++ [cur])
            { stU with processed_files := stU.processed_files ++ [cur.name] } st'
            (by
              simp only [allPaths_snoc, hUcomp, hcomp])
            (by
              rw [hUout, if_neg hUcompne, if_neg (by
                rw [allPaths_snoc]
                intro hx
                rcases List.append_eq_nil.mp hx with ⟨_, h2⟩
                exact hcurne (List.map_eq_nil_iff.mp h2))]
              rw [allChunksOf_snoc])
            (by
              refine Or.inr ⟨?_, by simp⟩
              simp only [hUpf2, allPaths_snoc, hUcomp, hcomp, List.length_append,
                List.length_singleton])
            (by
              intro d hd
              rcases List.mem_append.mp hd with hd | hd
              · exact hneD0 d hd
              · rw [List.mem_singleton] at hd
                subst hd
                exact hcurne)
            (fun d hd => hne d (List.mem_cons_of_mem _ hd))
            (fun d hd => hsucc d (List.mem_cons_of_mem _ hd))
            (by
              rw [allPaths_snoc, List.append_assoc]
              rw [allPaths_cons] at hnd
              rw [← List.append_assoc] at hnd
              rw [List.append_assoc] at hnd
              exact hnd)
            (by
              rw [show (D0 ++ [cur]).length + 1 = D0.length + 1 + 1 from by simp]
              exact hstep)
        refine ⟨cur :: D1', cur', rest', m', by rw [htl]; simp, hm', ?_, ?_, ?_⟩
        · rw [hcomp']
          rw [show D0 ++ cur :: D1' = (D0 ++ [cur]) ++ D1' from by simp]
        · rw [hout']
          rw [show D0 ++ cur :: D1' = (D0 ++ [cur]) ++ D1' from by simp]
        · rcases hpf' with h | ⟨s, h1, h2, h3⟩
          · exact Or.inl h
          · refine Or.inr ⟨s, h1, h2, ?_⟩
            simp at h3 ⊢
            omega

theorem path_mem_allPaths {α : Type} {u : WorkUnit α} {d : Document α}
    {D : List (Document α)} (hd : d ∈ D) (hu : u ∈ d.units) :
    u.path ∈ allPaths D := by
  unfold allPaths unitPaths
  exact List.mem_flatMap.mpr ⟨d, hd, List.mem_map.mpr ⟨u, hu, rfl⟩⟩

theorem pathsOf_take {α : Type} (l : List (WorkUnit α)) (m : Nat) :
    pathsOf (l.take m) = (pathsOf l).take m := by
  unfold pathsOf
  exact List.map_take _ _ _

theorem pathsOf_drop {α : Type} (l : List (WorkUnit α)) (m : Nat) :
    pathsOf (l.drop m) = (pathsOf l).drop m := by
  unfold pathsOf
  exact List.map_drop _ _ _

/-- The resumed pass: the completed set holds exactly the paths of every
unit of `D1` and the first `m` units of `cur`, the output file holds
exactly their chunks, the start index is at most `|D1| + 1` and no stop
occurs — the pass skips exactly the completed units, processes everything
else, and ends with the complete output. -/
theorem runDocs_resume_pass {α : Type} (cfg : RunCfg)
    (hstop : cfg.stopThresh = none)
    (D1 rest : List (Document α)) (cur : Document α) (m : Nat)
    (hs : cfg.start_file_idx ≤ D1.length + 1)
    (st : DriverState α)
    (hcomp : st.completed_chunk_paths = allPaths D1 ++ pathsOf (cur.units.take m))
    (hcompne : st.completed_chunk_paths ≠ [])
    (hout : st.outFile = some (allChunksOf D1 ++ chunksOf (cur.units.take m)))
    (hsucc : ∀ d ∈ D1 ++ cur :: rest, ∀ u ∈ d.units, u.result ≠ none)
    (hnd : (allPaths (D1 ++ cur :: rest)).Nodup) :
    ∃ st', runDocs cfg st (enumerateFrom 1 (D1 ++ cur :: rest)) = .done st' ∧
      st'.outFile = some (allChunksOf (D1 ++ cur :: rest)) := by
  rw [allPaths_append, allPaths_cons] at hnd
  have hndcur : (pathsOf cur.units).Nodup := hnd.of_append_right.of_append_left
  obtain ⟨stA, hA, hoA, hpA, haA, hcA⟩ := runDocs_all_completed cfg hstop
    (enumerateFrom 1 D1) st
    (fun p hp u hu => by
      rw [hcomp]
      exact List.mem_append_left _
        (path_mem_allPaths (enumerateFrom_mem_snd 1 D1 p hp) hu))
  have h1 : runDocs cfg st (enumerateFrom 1 (D1 ++ cur :: rest)) =
      runDocs cfg stA
        ((1 + D1.length, cur) :: enumerateFrom (1 + D1.length + 1) rest) := by
    rw [enumerateFrom_append, runDocs_append, hA]
    rfl
  have hdropfresh : ∀ u ∈ cur.units.drop m,
      u.path ∉ st.completed_chunk_paths := by
    intro u hu
    rw [hcomp]
    simp only [List.mem_append]
    rintro (hin | hin)
    · exact List.disjoint_of_nodup_append hnd hin
        (List.mem_append_left _
          (List.mem_map.mpr ⟨u, List.mem_of_mem_drop hu, rfl⟩))
    · have h2 : u.path ∈ (pathsOf cur.units).drop m := by
        rw [← pathsOf_drop]
        exact List.mem_map.mpr ⟨u, hu, rfl⟩
      rw [pathsOf_take] at hin
      have hnd2 : ((pathsOf cur.units).take m ++ (pathsOf cur.units).drop m).Nodup := by
        rw [List.take_append_drop]
        exact hndcur
      exact List.disjoint_of_nodup_append hnd2 hin h2
  obtain ⟨pfB, hB⟩ := runUnits_process_all cfg (1 + D1.length) hstop
    (cur.units.drop m) (1 + (cur.units.take m).length)
    { { stA with polls := stA.polls + 1 } with
      polls := ({ stA with polls := stA.polls + 1 } :
        DriverState α).polls + (cur.units.take m).length }
    (allChunksOf D1 ++ chunksOf (cur.units.take m))
    (hoA.trans hout)
    (show stA.completed_chunk_paths ≠ [] from by
      rw [hcA]
      exact hcompne)
    (fun u hu => show u.path ∉ stA.completed_chunk_paths from by
      rw [hcA]
      exact hdropfresh u hu)
    (fun u hu => hsucc cur (List.mem_append_right _ (List.mem_cons_self _ _)) u
      (List.mem_of_mem_drop hu))
    (show (pathsOf (cur.units.drop m)).Nodup from by
      rw [pathsOf_drop]
      exact List.Nodup.sublist (List.drop_sublist _ _) hndcur)
  obtain ⟨st', hC, hoC, haC, hcC, hpC⟩ := runDocs_process_tail cfg hstop
    (enumerateFrom (1 + D1.length + 1) rest)
    (⟨some ((allChunksOf D1 ++ chunksOf (cur.units.take m)) ++
        chunksOf (cur.units.drop m)), pfB,
      stA.all_chunks ++ chunksOf (cur.units.drop m),
      stA.completed_chunk_paths ++ pathsOf (cur.units.drop m),
      stA.processed_files ++ [cur.name],
      stA.polls + 1 + (cur.units.take m).length + (cur.units.drop m).length⟩ :
      DriverState α)
    ((allChunksOf D1 ++ chunksOf (cur.units.take m)) ++ chunksOf (cur.units.drop m))
    rfl
    (by
      intro hx
      have h4 : stA.completed_chunk_paths = [] := (List.append_eq_nil.mp hx).1
      rw [hcA] at h4
      exact hcompne h4)
    (fun p hp => by
      have := enumerateFrom_mem_fst_ge (1 + D1.length + 1) rest p hp
      omega)
    (fun p hp u hu => show u.path ∉ stA.completed_chunk_paths ++
        pathsOf (cur.units.drop m) from by
      rw [hcA, hcomp]
      intro hin
      have hmem2 : u.path ∈ allPaths rest :=
        path_mem_allPaths (enumerateFrom_mem_snd _ rest p hp) hu
      have hnd3 := hnd.of_append_right
      rcases List.mem_append.mp hin with hin | hin
      · rcases List.mem_append.mp hin with hin | hin
        · exact List.disjoint_of_nodup_append hnd hin
            (List.mem_append_right _ hmem2)
        · rw [pathsOf_take] at hin
          exact List.disjoint_of_nodup_append hnd3
            (List.mem_of_mem_take hin) hmem2
      · rw [pathsOf_drop] at hin
        exact List.disjoint_of_nodup_append hnd3
          (List.mem_of_mem_drop hin) hmem2)
    (fun p hp u hu => hsucc p.2 (List.mem_append_right _
      (List.mem_cons_of_mem _ (enumerateFrom_mem_snd _ rest p hp))) u hu)
    (by
      rw [paths_unitsOfEnum_enumerateFrom]
      exact hnd.of_append_right.of_append_right)
  have h2 : runDocs cfg stA
      ((1 + D1.length, cur) :: enumerateFrom (1 + D1.length + 1) rest) =
      .done st' := by
    rw [runDocs_cons_run cfg stA (1 + D1.length) cur _ (by rw [hstop]; rfl)
      (by omega)]
    rw [show (cur.units : List (WorkUnit α)) =
      cur.units.take m ++ cur.units.drop m from
      (List.take_append_drop m cur.units).symm]
    rw [runUnits_skip_front cfg (1 + D1.length) hstop (cur.units.take m)
      (cur.units.drop m) 1 { stA with polls := stA.polls + 1 }
      (fun u hu => show u.path ∈ stA.completed_chunk_paths from by
        rw [hcA, hcomp]
        exact List.mem_append_right _ (List.mem_map.mpr ⟨u, hu, rfl⟩))]
    rw [hB]
    exact hC
  refine ⟨st', h1.trans h2, ?_⟩
  rw [hoC, chunks_unitsOfEnum_enumerateFrom, allChunksOf_append, allChunksOf_cons]
  rw [show chunksOf cur.units =
    chunksOf (cur.units.take m) ++ chunksOf (cur.units.drop m) from by
    rw [← chunksOf_append, List.take_append_drop]]
  simp [List.append_assoc]

/-- C1: resume correctness — a fresh run stopped by the cooperative stop
flag leaves an output file and checkpoint from which a `resume=true` run
with the same configuration (within the staleness window) skips exactly the
completed Work Units and the documents before the recorded in-progress
index, and ends with an output file whose chunk sequence is the chunks
completed before the stop followed by the chunks of the remaining units —
the full chunk sequence of the input, with no duplicates and no
omissions. -/
theorem resume_correctness {α : Type}
    (docs : List (Document α)) (output_file : String) (params : JobParams)
    (now1 now2 : ℚ) (t : Nat)
    (hresume : params.resume = false)
    (hne : ∀ d ∈ docs, d.units ≠ [])
    (hsucc : ∀ d ∈ docs, ∀ u ∈ d.units, u.result ≠ none)
    (hnd : (allPaths docs).Nodup)
    (hfresh : now2 - now1 ≤ 7 * 86400)
    (hstopped : (chunk_documents docs output_file params none none now1
      (some t)).1.resumable = some true) :
    ∃ preChunks restChunks : List α,
      ((chunk_documents docs output_file params none none now1
        (some t)).2.outFile).getD [] = preChunks ∧
      preChunks ++ restChunks = allChunksOf docs ∧
      (chunk_documents docs output_file { params with resume := true }
        (chunk_documents docs output_file params none none now1
          (some t)).2.progressFile
        (chunk_documents docs output_file params none none now1
          (some t)).2.outFile
        now2 none).2.outFile = some (preChunks ++ restChunks) := by
  have hempty : docs.isEmpty = false := by
    cases docs with
    | nil =>
      exfalso
      revert hstopped
      unfold chunk_documents
      simp
    | cons a l => rfl
  have hdocsne : docs ≠ [] := by
    intro h
    rw [h] at hempty
    exact Bool.noConfusion hempty
  have hrun1 : ∃ s1,
      runDocs
        { stopThresh := some t, start_file_idx := 1
          output_file := output_file, total_files := docs.length
          config := configOfParams params, now := now1 }
        { outFile := none, progressFile := none, all_chunks := []
          completed_chunk_paths := [], processed_files := [], polls := 0 }
        (enumerateFrom 1 docs) = .stopped s1 ∧
      chunk_documents docs output_file params none none now1 (some t) =
        ({ success := false, error := some "Stopped by user",
           resumable := some true,
           completed_parts := some s1.completed_chunk_paths.length }, s1) := by
    have h := hstopped
    unfold chunk_documents at h ⊢
    rw [hempty, hresume] at h ⊢
    simp only [Bool.false_eq_true, if_false, Option.map_none',
      Option.getD_none] at h ⊢
    rcases hrd : runDocs
        { stopThresh := some t, start_file_idx := 1
          output_file := output_file, total_files := docs.length
          config := configOfParams params, now := now1 }
        { outFile := none, progressFile := none, all_chunks := []
          completed_chunk_paths := [], processed_files := [], polls := 0 }
        (enumerateFrom 1 docs) with s1 | s1
    · exact ⟨s1, rfl, rfl⟩
    · exfalso
      rw [hrd] at h
      revert h
      cases hac : s1.all_chunks.isEmpty <;> simp [hac]
  obtain ⟨s1, hrd1, hpair1⟩ := hrun1
  have hpf' : (chunk_documents docs output_file params none none now1
      (some t)).2.progressFile = s1.progressFile := by rw [hpair1]
  have hout' : (chunk_documents docs output_file params none none now1
      (some t)).2.outFile = s1.outFile := by rw [hpair1]
  rw [hpf', hout']
  obtain ⟨D1, cur, rest, m, htl, _hm, hcomp1, hout1, hpf1⟩ :=
    runDocs_run1_stopped
      { stopThresh := some t, start_file_idx := 1
        output_file := output_file, total_files := docs.length
        config := configOfParams params, now := now1 }
      t rfl rfl none docs []
      { outFile := none, progressFile := none, all_chunks := []
        completed_chunk_paths := [], processed_files := [], polls := 0 }
      s1 rfl rfl (Or.inl ⟨rfl, rfl⟩)
      (fun d hd => absurd hd (List.not_mem_nil d))
      hne hsucc
      (by simp only [show allPaths ([] : List (Document α)) = [] from rfl,
        List.nil_append]; exact hnd)
      hrd1
  simp only [List.nil_append] at hcomp1 hout1 hpf1
  subst htl
  rcases hpf1 with ⟨hpfn, hcen⟩ | ⟨s, hpfs, hs1, hs2⟩
  · rw [if_pos hcen] at hout1
    refine ⟨[], allChunksOf (D1 ++ cur :: rest), ?_, List.nil_append _, ?_⟩
    · rw [hout1]
      rfl
    · rw [hpfn, hout1, List.nil_append]
      unfold chunk_documents
      rw [hempty]
      simp only [Bool.false_eq_true, if_false, if_true, load_progress,
        Option.map_none', Option.getD_none]
      obtain ⟨st2, hrun2, ho2, ha2, hc2, hp2⟩ := runDocs_fresh
        { stopThresh := none, start_file_idx := 1
          output_file := output_file, total_files := (D1 ++ cur :: rest).length
          config := configOfParams { params with resume := true }, now := now2 }
        rfl (le_refl 1) (D1 ++ cur :: rest)
        { outFile := none, progressFile := none, all_chunks := []
          completed_chunk_paths := [], processed_files := [], polls := 0 }
        rfl hne hsucc hnd hdocsne
      rw [hrun2]
      cases hae : st2.all_chunks.isEmpty <;> simp [hae, ho2]
  · by_cases hce : s1.completed_chunk_paths = []
    · rw [if_pos hce] at hout1
      have hsle : s ≤ 1 := by
        have hD1nil : D1 = [] := by
          rw [hce] at hcomp1
          rcases List.append_eq_nil.mp hcomp1.symm with ⟨h1, h2⟩
          by_contra hD1
          exact allPaths_ne_nil D1
            (fun d hd => hne d (List.mem_append_left _ hd)) hD1 h1
        rw [hD1nil] at hs2
        simpa using hs2
      refine ⟨[], allChunksOf (D1 ++ cur :: rest), ?_, List.nil_append _, ?_⟩
      · rw [hout1]
        rfl
      · rw [hpfs, hout1, List.nil_append]
        unfold chunk_documents
        rw [hempty]
        have hload2 : load_progress (some (save_progress output_file
            s1.completed_chunk_paths s (D1 ++ cur :: rest).length
            (configOfParams params) now1)) now2 =
            some (save_progress output_file s1.completed_chunk_paths s
              (D1 ++ cur :: rest).length (configOfParams params) now1) :=
          load_progress_fresh _ now2 (by exact hfresh)
        have hpdc : (save_progress output_file s1.completed_chunk_paths s
            (D1 ++ cur :: rest).length (configOfParams params)
            now1).completed_chunks = s1.completed_chunk_paths := rfl
        have hpdi : (save_progress output_file s1.completed_chunk_paths s
            (D1 ++ cur :: rest).length (configOfParams params)
            now1).current_file_idx = s := rfl
        simp only [Bool.false_eq_true, if_false, if_true, hload2,
          Option.map_some', Option.getD_some, hpdc, hpdi]
        obtain ⟨st2, hrun2, ho2, ha2, hc2, hp2⟩ := runDocs_fresh
          { stopThresh := none, start_file_idx := s
            output_file := output_file
            total_files := (D1 ++ cur :: rest).length
            config := configOfParams { params with resume := true }
            now := now2 }
          rfl hsle (D1 ++ cur :: rest)
          { outFile := none
            progressFile := some (save_progress output_file
              s1.completed_chunk_paths s (D1 ++ cur :: rest).length
              (configOfParams params) now1)
            all_chunks := []
            completed_chunk_paths := s1.completed_chunk_paths
            processed_files := [], polls := 0 }
          hce hne hsucc hnd hdocsne
        rw [hrun2]
        cases hae : st2.all_chunks.isEmpty <;> simp [hae, ho2]
    · rw [if_neg hce] at hout1
      have halg : allChunksOf (D1 ++ cur :: rest) =
          (allChunksOf D1 ++ chunksOf (cur.units.take m)) ++
            (chunksOf (cur.units.drop m) ++ allChunksOf rest) := by
        rw [allChunksOf_append, allChunksOf_cons]
        rw [show chunksOf cur.units =
          chunksOf (cur.units.take m) ++ chunksOf (cur.units.drop m) from by
          rw [← chunksOf_append, List.take_append_drop]]
        simp [List.append_assoc]
      refine ⟨allChunksOf D1 ++ chunksOf (cur.units.take m),
        chunksOf (cur.units.drop m) ++ allChunksOf rest, ?_, halg.symm, ?_⟩
      · rw [hout1]
        rfl
      · rw [hpfs, hout1]
        unfold chunk_documents
        rw [hempty]
        have hload2 : load_progress (some (save_progress output_file
            s1.completed_chunk_paths s (D1 ++ cur :: rest).length
            (configOfParams params) now1)) now2 =
            some (save_progress output_file s1.completed_chunk_paths s
              (D1 ++ cur :: rest).length (configOfParams params) now1) :=
          load_progress_fresh _ now2 (by exact hfresh)
        have hpdc : (save_progress output_file s1.completed_chunk_paths s
            (D1 ++ cur :: rest).length (configOfParams params)
            now1).completed_chunks = s1.completed_chunk_paths := rfl
        have hpdi : (save_progress output_file s1.completed_chunk_paths s
            (D1 ++ cur :: rest).length (configOfParams params)
            now1).current_file_idx = s := rfl
        simp only [Bool.false_eq_true, if_false, if_true, hload2,
          Option.map_some', Option.getD_some, hpdc, hpdi]
        obtain ⟨st2, hrun2, ho2⟩ := runDocs_resume_pass
          { stopThresh := none, start_file_idx := s
            output_file := output_file
            total_files := (D1 ++ cur :: rest).length
            config := configOfParams { params with resume := true }
            now := now2 }
          rfl D1 rest cur m hs2
          { outFile := some (allChunksOf D1 ++ chunksOf (cur.units.take m))
            progressFile := some (save_progress output_file
              s1.completed_chunk_paths s (D1 ++ cur :: rest).length
              (configOfParams params) now1)
            all_chunks := []
            completed_chunk_paths := s1.completed_chunk_paths
            processed_files := [], polls := 0 }
          hcomp1 hce rfl hsucc hnd
        rw [hrun2]
        cases hae : st2.all_chunks.isEmpty <;> simp [hae, ho2, halg]

/-- Witness for C1: a two-document job stopped before its second Work Unit
(one unit completed and checkpointed, output file holding its chunk), then
resumed 100 seconds later — the resumed run skips the completed unit and
finishes with the full chunk sequence. -/
theorem resume_correctness_witness :
    (∀ d ∈ [(⟨"d1", [⟨"p1", some [1]⟩, ⟨"p2", some [2]⟩]⟩ : Document Nat),
        ⟨"d2", [⟨"p3", some [3]⟩]⟩], d.units ≠ []) ∧
    (∃ preChunks restChunks : List Nat,
      ((chunk_documents [⟨"d1", [⟨"p1", some [1]⟩, ⟨"p2", some [2]⟩]⟩,
          ⟨"d2", [⟨"p3", some [3]⟩]⟩] "o"
          (⟨512, true, true, false, false, false, true, true, 100, false, 4, 4⟩ :
            JobParams) none none 0 (some 2)).2.outFile).getD [] = preChunks ∧
      preChunks ++ restChunks =
        allChunksOf [(⟨"d1", [⟨"p1", some [1]⟩, ⟨"p2", some [2]⟩]⟩ : Document Nat),
          ⟨"d2", [⟨"p3", some [3]⟩]⟩] ∧
      (chunk_documents [⟨"d1", [⟨"p1", some [1]⟩, ⟨"p2", some [2]⟩]⟩,
          ⟨"d2", [⟨"p3", some [3]⟩]⟩] "o"
        { (⟨512, true, true, false, false, false, true, true, 100, false, 4, 4⟩ :
            JobParams) with resume := true }
        (chunk_documents [⟨"d1", [⟨"p1", some [1]⟩, ⟨"p2", some [2]⟩]⟩,
          ⟨"d2", [⟨"p3", some [3]⟩]⟩] "o"
          (⟨512, true, true, false, false, false, true, true, 100, false, 4, 4⟩ :
            JobParams) none none 0 (some 2)).2.progressFile
        (chunk_documents [⟨"d1", [⟨"p1", some [1]⟩, ⟨"p2", some [2]⟩]⟩,
          ⟨"d2", [⟨"p3", some [3]⟩]⟩] "o"
          (⟨512, true, true, false, false, false, true, true, 100, false, 4, 4⟩ :
            JobParams) none none 0 (some 2)).2.outFile
        100 none).2.outFile = some (preChunks ++ restChunks)) :=
  ⟨by decide,
   resume_correctness
     [⟨"d1", [⟨"p1", some [1]⟩, ⟨"p2", some [2]⟩]⟩, ⟨"d2", [⟨"p3", some [3]⟩]⟩]
     "o" ⟨512, true, true, false, false, false, true, true, 100, false, 4, 4⟩
     0 100 2 rfl (by decide) (by decide) (by decide) (by norm_num) rfl⟩
